import Mathlib

/-!
Verification development for the `gc` distributed cache.

Shallow embedding of

* `consistenthash/consistenthash.go` : the hash ring (`Map`, `New`, `Add`, `Remove`, `Get`);
* `gcache.go` : the cache namespace (`Group`, `Get`, `load`, `getFromPeer`, `getLocally`);
* `http.go` : the peer pool (`HTTPPool`, `Set`, `Pick`, `ServeHTTP`);
* `byteview.go` : the value wrapper (`ByteView`), once as the bytes it shows (namespace `gc`)
  and once with its slice as a reference into a heap of arrays (namespace `gc.heap`).

Conventions of the embedding.

* Go `string` is `String`; `[]byte` is `List UInt8`; `int` is `Int` (64-bit platform, so that
  `int(x)` of a `uint32` is the same non-negative number); `uint32` results are `Nat` reduced
  modulo `2^32` where they are converted.
* Go `map[int]string` is an association list holding at most one entry per key.
* A Go run-time panic is the `none` of an `Option`.
* Library routines (`sort.Search`, `sort.SearchInts`, `sort.Ints`, `strconv.Itoa`,
  `strconv.Atoi`, `crc32.ChecksumIEEE`) are embedded from the documented Go library code.
-/

namespace consistenthash

/-! ## Library routines -/

/-- The loop of Go `sort.Search`: `for i < j { h := (i+j)/2; if !f(h) { i = h+1 } else { j = h } }`.
The first argument bounds the number of iterations; `j - i` iterations are always enough
(`searchLoop_fuel`), and the loop has then ended with `i ≥ j`. -/
def searchLoop (f : Nat → Bool) : Nat → Nat → Nat → Nat
  | 0, i, _ => i
  | fuel + 1, i, j =>
    if i < j then
      let h := (i + j) / 2
      if !f h then searchLoop f fuel (h + 1) j else searchLoop f fuel i h
    else i

/-- Go `sort.Search(n, f)`. -/
def Search (n : Nat) (f : Nat → Bool) : Nat := searchLoop f n 0 n

/-- Go `sort.SearchInts(a, x)`: `Search(len(a), func(i int) bool { return a[i] >= x })`. -/
def SearchInts (a : List Int) (x : Int) : Nat :=
  Search a.length (fun i => decide (a.getD i 0 ≥ x))

/-- Go `sort.Ints`: sorts in increasing order. -/
def sortInts (a : List Int) : List Int := a.insertionSort (fun x y => x ≤ y)

/-- Go `strconv.Itoa` on a non-negative number. -/
def Itoa (i : Nat) : String := Nat.repr i

/-- The bytes of a Go string (`[]byte(s)`). -/
def bytesOf (s : String) : List UInt8 := s.toList.flatMap String.utf8EncodeChar

/-- One bit step of the reflected CRC-32 with the IEEE polynomial. -/
def crcBit (c : Nat) : Nat := if c % 2 = 1 then (c / 2) ^^^ 0xEDB88320 else c / 2

/-- One byte step of CRC-32. -/
def crcByte (c : Nat) (b : UInt8) : Nat := crcBit^[8] (c ^^^ b.toNat)

/-- Go `crc32.ChecksumIEEE`, as a function of the string whose bytes are hashed. -/
def ChecksumIEEE (data : String) : Nat :=
  ((bytesOf data).foldl crcByte 0xFFFFFFFF) ^^^ 0xFFFFFFFF

/-! ## Go maps `map[int]string` -/

/-- Go `map[int]string`. -/
abbrev IntMap := List (Int × String)

/-- Lookup `v, ok := h[k]`. -/
def IntMap.find (h : IntMap) (k : Int) : Option String := h.lookup k

/-- Index expression `h[k]`: the zero value `""` when `k` is absent. -/
def IntMap.index (h : IntMap) (k : Int) : String := (h.find k).getD ""

/-- Builtin `delete(h, k)`. -/
def IntMap.delete (h : IntMap) (k : Int) : IntMap := h.filter (fun e => e.1 != k)

/-- Assignment `h[k] = v`. -/
def IntMap.set (h : IntMap) (k : Int) (v : String) : IntMap := (k, v) :: h.delete k

/-! ## `consistenthash.Map` -/

/-- Type `Hash func(data []byte) uint32`, as a function of the string whose bytes are hashed. -/
abbrev Hash := String → Nat

/-- The struct `Map`. -/
structure Map where
  hash : Hash
  replicas : Int
  keys : List Int
  hashmap : IntMap

/-- The constructor `New(replicas, fn)`; `fn = none` is the nil function. -/
def New (replicas : Int) (fn : Option Hash) : Map :=
  { replicas := replicas
    hash := match fn with
      | some f => f
      | none => ChecksumIEEE
    keys := []
    hashmap := [] }

/-- The expression `int(m.hash([]byte(s)))`. -/
def Map.hashInt (m : Map) (s : String) : Int := ((m.hash s % 2 ^ 32 : Nat) : Int)

/-- Body of the inner loop of `Add`. -/
def Map.addReplica (m : Map) (key : String) (i : Nat) : Map :=
  let hash := m.hashInt (Itoa i ++ key)
  { m with keys := m.keys ++ [hash], hashmap := m.hashmap.set hash key }

/-- Body of the outer loop of `Add`: `for i := 0; i < m.replicas; i++ { ... }`. -/
def Map.addNode (m : Map) (key : String) : Map :=
  (List.range m.replicas.toNat).foldl (fun m i => m.addReplica key i) m

/-- Method `Map.Add(keys ...string)`. -/
def Map.Add (m : Map) (keys : List String) : Map :=
  let m1 := keys.foldl Map.addNode m
  { m1 with keys := sortInts m1.keys }

/-- Body of the loop of `Remove`; `none` when `m.keys[idx+1:]` is out of range. -/
def Map.removeReplica (m : Map) (key : String) (i : Nat) : Option Map :=
  let hash := m.hashInt (Itoa i ++ key)
  let idx := SearchInts m.keys hash
  if idx + 1 ≤ m.keys.length then
    some { m with keys := m.keys.take idx ++ m.keys.drop (idx + 1),
                  hashmap := m.hashmap.delete hash }
  else none

/-- Method `Map.Remove(key string)`; `none` when it panics. -/
def Map.Remove (m : Map) (key : String) : Option Map :=
  (List.range m.replicas.toNat).foldlM (fun m i => m.removeReplica key i) m

/-- Method `Map.Get(key string) string`. -/
def Map.Get (m : Map) (key : String) : String :=
  if m.keys.length = 0 then ""
  else
    let hash := m.hashInt key
    let idx := Search m.keys.length (fun i => decide (m.keys.getD i 0 ≥ hash))
    m.hashmap.index (m.keys.getD (idx % m.keys.length) 0)

/-! ## The hash of `TestHashing` -/

/-- Value of a string of decimal digits, `none` when a character is not a digit. -/
def digitsValue : List Char → Nat → Option Nat
  | [], n => some n
  | c :: cs, n => if c.isDigit then digitsValue cs (n * 10 + (c.toNat - 48)) else none

/-- Go `strconv.Atoi`, the error dropped: `0` on a syntax error, the nearest 64-bit value on a
range error. -/
def Atoi (s : String) : Int :=
  let cs := s.toList
  let neg := cs.head? = some '-'
  let body := if cs.head? = some '-' ∨ cs.head? = some '+' then cs.tail else cs
  if body = [] then 0
  else match digitsValue body 0 with
    | none => 0
    | some n =>
      if neg then (if n > 2 ^ 63 then -(2 ^ 63 : Int) else -(n : Int))
      else (if n ≥ 2 ^ 63 then (2 ^ 63 - 1 : Int) else (n : Int))

/-- The hash of the test: `i, _ := strconv.Atoi(string(data)); return uint32(i)`. -/
def testHash : Hash := fun data => (Atoi data % 2 ^ 32).toNat

/-- The ring of the test: `New(3, testHash)` then `Add("2", "4", "8")`. -/
def testRing : Map := (New 3 (some testHash)).Add ["2", "4", "8"]

/-! ## Positions of a ring -/

/-- The virtual position of replica `i` of node `key`: `int(hash([]byte(strconv.Itoa(i) + key)))`. -/
def position (hash : Hash) (key : String) (i : Nat) : Int :=
  ((hash (Itoa i ++ key) % 2 ^ 32 : Nat) : Int)

/-- The virtual positions of one node, replica `0` first. -/
def nodePositions (hash : Hash) (replicas : Int) (key : String) : List Int :=
  (List.range replicas.toNat).map (position hash key)

/-- The virtual positions of a list of nodes, in the order in which `Add` computes them. -/
def positions (hash : Hash) (replicas : Int) (keys : List String) : List Int :=
  keys.flatMap (nodePositions hash replicas)

/-- The pairs (position, node) that `Add` writes to `hashmap`, in the order of the writes. -/
def entries (hash : Hash) (replicas : Int) (keys : List String) : List (Int × String) :=
  keys.flatMap (fun key => (nodePositions hash replicas key).map (fun p => (p, key)))

/-- A sequence of assignments `h[k] = v`. -/
def IntMap.setAll (h : IntMap) (es : List (Int × String)) : IntMap :=
  es.foldl (fun h e => h.set e.1 e.2) h

/-- A sequence of `delete(h, k)`. -/
def IntMap.deleteAll (h : IntMap) (ks : List Int) : IntMap :=
  ks.foldl IntMap.delete h

/-- The ring built by `New(replicas, fn)` followed by one `Add` call per batch of nodes. -/
def built (replicas : Int) (fn : Option Hash) (batches : List (List String)) : Map :=
  batches.foldl Map.Add (New replicas fn)

/-- The batches of nodes with every occurrence of node `n` left out. -/
def withoutNode (n : String) (batches : List (List String)) : List (List String) :=
  batches.map (fun b => b.filter (fun x => decide (x ≠ n)))

/-- The rings a program can reach: `New`, then `Add` calls and `Remove` calls that return. -/
inductive Reachable : Map → Prop
  | new (replicas : Int) (fn : Option Hash) : Reachable (New replicas fn)
  | add {m : Map} (keys : List String) : Reachable m → Reachable (m.Add keys)
  | remove {m m' : Map} (key : String) : Reachable m → m.Remove key = some m' → Reachable m'

/-- The successor rule: `p` is the smallest position of `keys` that is `≥ h`, or, when no
position is `≥ h`, the smallest position of `keys`. -/
def IsSuccessor (keys : List Int) (h p : Int) : Prop :=
  p ∈ keys ∧ ((h ≤ p ∧ ∀ q ∈ keys, h ≤ q → p ≤ q) ∨ ((∀ q ∈ keys, q < h) ∧ ∀ q ∈ keys, p ≤ q))

/-- No position is shared by two different nodes of the list. -/
def NoCollision (hash : Hash) (replicas : Int) (keys : List String) : Prop :=
  ∀ a ∈ keys, ∀ b ∈ keys, ∀ p, p ∈ nodePositions hash replicas a →
    p ∈ nodePositions hash replicas b → a = b

/-! ## Sequences of calls on a ring -/

/-- A call on a ring: `Add(keys...)` or `Remove(key)`. -/
inductive RingOp where
  | add (keys : List String)
  | remove (key : String)

/-- The ring after a sequence of calls; `none` when one of the `Remove` calls panics. -/
def runOps : Map → List RingOp → Option Map
  | m, [] => some m
  | m, RingOp.add keys :: ops => runOps (m.Add keys) ops
  | m, RingOp.remove key :: ops =>
    match m.Remove key with
    | some m' => runOps m' ops
    | none => none

/-- The nodes in the ring after a sequence of calls that starts with the nodes `S` in the ring:
`Add` puts its nodes in, `Remove` takes its node out. -/
def nodesAfter : List String → List RingOp → List String
  | S, [] => S
  | S, RingOp.add keys :: ops => nodesAfter (S ++ keys) ops
  | S, RingOp.remove key :: ops => nodesAfter (S.filter (fun x => decide (x ≠ key))) ops

/-- All the nodes that the `Add` calls of a sequence name. -/
def addedNodes : List RingOp → List String
  | [] => []
  | RingOp.add keys :: ops => keys ++ addedNodes ops
  | RingOp.remove _ :: ops => addedNodes ops

/-- A sequence of calls in which every `Add` names nodes that are not in the ring, each once,
and every `Remove` names a node that is in the ring. -/
def FreshOps : List String → List RingOp → Prop
  | _, [] => True
  | S, RingOp.add keys :: ops => keys.Nodup ∧ (∀ x ∈ keys, x ∉ S) ∧ FreshOps (S ++ keys) ops
  | S, RingOp.remove key :: ops => key ∈ S ∧ FreshOps (S.filter (fun x => decide (x ≠ key))) ops

/-- No two different virtual nodes `(i, a)` and `(j, b)` of the nodes of `U` hash to the same
position. -/
def DistinctPositions (hash : Hash) (replicas : Int) (U : List String) : Prop :=
  ∀ a ∈ U, ∀ b ∈ U, ∀ i j, i < replicas.toNat → j < replicas.toNat →
    position hash a i = position hash b j → a = b ∧ i = j

/-- The invariant of the ring-size claim, for a ring `m` that holds the nodes `S`: the fields
of configuration, the order of `keys`, `keys` as a rearrangement of the positions of `S`, and
`hashmap` with one entry for each position of `keys`. -/
def SizeInv (hash : Hash) (replicas : Int) (m : Map) (S : List String) : Prop :=
  m.hash = hash ∧ m.replicas = replicas ∧ m.keys.Sorted (· ≤ ·) ∧
    m.keys.Perm (positions hash replicas S) ∧ (m.hashmap.map Prod.fst).Nodup ∧
    (∀ p, p ∈ m.hashmap.map Prod.fst ↔ p ∈ m.keys) ∧ S.Nodup

end consistenthash

namespace gc

/-! ## `byteview.go` -/

/-- The struct `ByteView`, as the bytes that its slice `b` shows. What two slices that share
an array do to each other is the subject of `heap.ByteView`. -/
structure ByteView where
  b : List UInt8
deriving DecidableEq

/-- Method `ByteView.Len`. -/
def ByteView.Len (bv : ByteView) : Int := bv.b.length

/-- Function `cloneBytes`: a fresh slice with the same bytes. -/
def cloneBytes (b : List UInt8) : List UInt8 := b

/-! ## Collaborators of `Group` -/

/-- Modelled from the spec: package `gcerror` is not part of the sources. Go `error` values:
`ErrKey` is the invalid-key error of `gcerror` and `ErrGetter` its missing-loader error, and
`other` stands for every error made elsewhere (by a loader or by a peer transport). -/
inductive Error where
  | ErrKey
  | ErrGetter
  | other (msg : String)
deriving DecidableEq

/-- Interface `Getter`: method `Get(key string) ([]byte, error)`. -/
structure Getter where
  Get : String → List UInt8 × Option Error

/-- Interface `PeerGetter`: method `Get(in *pb.Request, out *pb.Response) error`, as the function
from the group and key of the request to the bytes left in `out.Value` and the error. -/
structure PeerGetter where
  Get : String → String → List UInt8 × Option Error

/-- Interface `PeerPicker`: method `Pick(key string) (PeerGetter, bool)`; `none` is `ok = false`.
The field gives what `Pick` returns; a `Pick` that panics instead of returning, as the one of
`HTTPPool` can, is accounted for by `Group.GetOrPanic`. -/
structure PeerPicker where
  Pick : String → Option PeerGetter

/-- Modelled from the spec: the type `cache` of the field `mainCache` is not part of the
sources. It is the byte-bounded least-recently-used store of the spec: `entries` holds the
resident entries, most recently used first, and `cacheBytes` is the capacity, where a capacity
`≤ 0` means unbounded. -/
structure cache where
  cacheBytes : Int
  entries : List (String × ByteView)

/-- Modelled from the spec: the size of an entry is `len(key) + len(value-bytes)`. -/
def cache.entrySize (e : String × ByteView) : Int := (e.1.utf8ByteSize : Int) + e.2.Len

/-- Modelled from the spec: the sum of the sizes of the resident entries. -/
def cache.used (es : List (String × ByteView)) : Int := (es.map cache.entrySize).sum

/-- Modelled from the spec: while the capacity is positive and exceeded, evict the least
recently used entry, until within budget or empty. The first argument bounds the number of
evictions, one per entry being enough. -/
def cache.evict (cap : Int) : Nat → List (String × ByteView) → List (String × ByteView)
  | 0, es => es
  | fuel + 1, es => if 0 < cap ∧ cap < cache.used es then cache.evict cap fuel es.dropLast else es

/-- Modelled from the spec: `get(key)` returns the value and `true` on a hit and promotes the
entry to most recently used; it has no effect on a miss. -/
def cache.get (c : cache) (key : String) : (ByteView × Bool) × cache :=
  match c.entries.lookup key with
  | some v => ((v, true), { c with entries := (key, v) :: c.entries.filter (fun e => e.1 != key) })
  | none => ((ByteView.mk [], false), c)

/-- Modelled from the spec: `add(key, value)` inserts or updates the entry, makes it the most
recently used and then evicts. -/
def cache.add (c : cache) (key : String) (value : ByteView) : cache :=
  let es := (key, value) :: c.entries.filter (fun e => e.1 != key)
  { c with entries := cache.evict c.cacheBytes es.length es }

/-- Calls that `Group` makes on its collaborators, in the order in which they are made. -/
inductive Event where
  | cacheGet (key : String)
  | cacheAdd (key : String) (value : ByteView)
  | logCacheHit (key : String)
  | logPeer (err : Option Error)
  | pick (key : String)
  | peerGet (group key : String)
  | getterGet (key : String)
deriving DecidableEq

/-! ## `gcache.go` -/

/-- The struct `Group`. The field `logger` is the log lines among `events`; `events` records
the calls made so far on the cache, the logger, the peers and the getter. The field `loader`
has no state between calls that do not overlap. -/
structure Group where
  name : String
  getter : Getter
  mainCache : cache
  peers : Option PeerPicker
  events : List Event

/-- The package variable `ErrKey`. -/
def ErrKey : Error := Error.ErrKey

/-- The package variable `ErrGetter`. -/
def ErrGetter : Error := Error.ErrGetter

/-- The package variable `groups`. -/
abbrev Groups := List (String × Group)

/-- Function `NewGroup`; `none` is the panic on a nil getter. -/
def NewGroup (groups : Groups) (name : String) (cacheBytes : Int) (getter : Option Getter) :
    Option (Group × Groups) :=
  match getter with
  | none => none
  | some gt =>
    let g : Group :=
      { name := name, mainCache := { cacheBytes := cacheBytes, entries := [] }, getter := gt,
        peers := none, events := [] }
    some (g, (name, g) :: groups.filter (fun e => e.1 != name))

/-- Method `Group.RegisterPeers`; `none` is the panic on a nil picker. -/
def Group.RegisterPeers (g : Group) (peers : Option PeerPicker) : Option Group :=
  match peers with
  | none => none
  | some p => some { g with peers := some p }

/-- Modelled from the spec: package `singleflight` is not part of the sources. For a call that
no other call on the same key overlaps, `Do(key, fn)` runs `fn` once and returns its result. -/
def singleflightDo {σ α : Type} (_key : String) (fn : σ → α × σ) (s : σ) : α × σ := fn s

/-- Method `Group.getFromPeer`. -/
def Group.getFromPeer (g : Group) (peer : PeerGetter) (key : String) :
    (ByteView × Option Error) × Group :=
  let res := peer.Get g.name key
  let g1 := { g with events := g.events ++ [Event.peerGet g.name key] }
  match res.2 with
  | some e => ((ByteView.mk [], some e), g1)
  | none => ((ByteView.mk res.1, none), g1)

/-- Method `Group.populateCache`. -/
def Group.populateCache (g : Group) (key : String) (val : ByteView) : Group :=
  { g with mainCache := g.mainCache.add key val, events := g.events ++ [Event.cacheAdd key val] }

/-- Method `Group.getLocally`. -/
def Group.getLocally (g : Group) (key : String) : (ByteView × Option Error) × Group :=
  let res := g.getter.Get key
  let g1 := { g with events := g.events ++ [Event.getterGet key] }
  match res.2 with
  | some e => ((ByteView.mk [], some e), g1)
  | none =>
    let value := ByteView.mk (cloneBytes res.1)
    ((value, none), g1.populateCache key value)

/-- The named results `value` and `err` of `load`, which its function literal assigns. -/
structure LoadVars where
  value : ByteView
  err : Option Error

/-- The function literal that `load` passes to `Do`. It returns its own pair of results and
threads the captured variables of `load` and the group. -/
def Group.loadFn (key : String) (s : LoadVars × Group) :
    (ByteView × Option Error) × (LoadVars × Group) :=
  let vars := s.1
  let g := s.2
  match g.peers with
  | some peers =>
    let g1 := { g with events := g.events ++ [Event.pick key] }
    match peers.Pick key with
    | some peer =>
      -- `if value, err = g.getFromPeer(peer, key); err != nil { return value, nil }`
      let r := g1.getFromPeer peer key
      let vars1 : LoadVars := { value := r.1.1, err := r.1.2 }
      if vars1.err ≠ none then ((vars1.value, none), (vars1, r.2))
      else
        -- `g.logger.Printf("Fail to get from remote: %v", err)`, then `return g.getLocally(key)`
        let g2 := { r.2 with events := r.2.events ++ [Event.logPeer vars1.err] }
        let r2 := g2.getLocally key
        (r2.1, (vars1, r2.2))
    | none =>
      let r2 := g1.getLocally key
      (r2.1, (vars, r2.2))
  | none =>
    let r2 := g.getLocally key
    (r2.1, (vars, r2.2))

/-- Method `Group.load`, with named results `value` and `err`. -/
def Group.load (g : Group) (key : String) : (ByteView × Option Error) × Group :=
  -- named results start as zero values
  let vars0 : LoadVars := { value := ByteView.mk [], err := none }
  -- `viewi, err := g.loader.Do(key, func() ...)` assigns the named `err`
  let r := singleflightDo key (Group.loadFn key) (vars0, g)
  let viewi := r.1.1
  let vars1 : LoadVars := { r.2.1 with err := r.1.2 }
  if vars1.err ≠ none then ((viewi, vars1.err), r.2.2)
  else ((vars1.value, vars1.err), r.2.2)

/-- Method `Group.Get`. -/
def Group.Get (g : Group) (key : String) : (ByteView × Option Error) × Group :=
  if key = "" then ((ByteView.mk [], some ErrKey), g)
  else
    let r := g.mainCache.get key
    let g1 := { g with mainCache := r.2, events := g.events ++ [Event.cacheGet key] }
    if r.1.2 then ((r.1.1, none), { g1 with events := g1.events ++ [Event.logCacheHit key] })
    else g1.load key

/-! ## Example groups -/

/-- A loader that knows the key `"Tom"` only. -/
def exampleGetter : Getter :=
  { Get := fun key => if key = "Tom" then ([54, 51, 48], none) else ([], some (Error.other "not exist")) }

/-- The group `NewGroup("scores", 2048, exampleGetter)` builds. -/
def exampleGroup : Group :=
  { name := "scores", getter := exampleGetter, mainCache := { cacheBytes := 2048, entries := [] },
    peers := none, events := [] }

/-- A peer whose fetch always fails. -/
def failingPeer : PeerGetter := { Get := fun _ _ => ([], some (Error.other "connection refused")) }

/-- A peer that answers every request with the bytes of `"589"`. -/
def answeringPeer : PeerGetter := { Get := fun _ _ => ([53, 56, 57], none) }

/-- The example group after `RegisterPeers` of a picker that always picks `peer`. -/
def exampleGroupWithPeer (peer : PeerGetter) : Group :=
  { exampleGroup with peers := some { Pick := fun _ => some peer } }

/-- Method `ByteView.ByteSlice`: `return bv.b`. -/
def ByteView.ByteSlice (bv : ByteView) : List UInt8 := bv.b

/-- Function `GetGroup`; `none` is the nil group. -/
def GetGroup (groups : Groups) (name : String) : Option Group := groups.lookup name

/-! ## `http.go` -/

/-- The struct `httpGetter`. -/
structure httpGetter where
  defaultURL : String
deriving DecidableEq

/-- The constant `defaultBasePath`. -/
def defaultBasePath : String := "/gc/"

/-- The constant `defaultReplicas`. -/
def defaultReplicas : Int := 50

/-- The struct `HTTPPool`; `httpGetters` is the Go map from peer to getter. The lock `mu` and
the `logger` have no part in what the methods return. -/
structure HTTPPool where
  self : String
  basepath : String
  peers : consistenthash.Map
  httpGetters : List (String × httpGetter)

/-- Function `NewHTTPPool`. -/
def NewHTTPPool (self : String) : HTTPPool :=
  { self := self, basepath := defaultBasePath,
    peers := consistenthash.New defaultReplicas none, httpGetters := [] }

/-- Assignment `p.httpGetters[peer] = &httpGetter{defaultURL: peer + p.basepath}`. -/
def HTTPPool.setGetter (basepath : String) (gs : List (String × httpGetter)) (peer : String) :
    List (String × httpGetter) :=
  (peer, { defaultURL := peer ++ basepath }) :: gs.filter (fun e => e.1 != peer)

/-- Method `HTTPPool.Set`. -/
def HTTPPool.Set (p : HTTPPool) (peers : List String) : HTTPPool :=
  let ring := p.peers.Add peers
  let getters := peers.foldl (HTTPPool.setGetter p.basepath) p.httpGetters
  { p with peers := ring, httpGetters := getters }

/-- Go `(*log.Logger).Panicf` and `Panicln`: the line is written, then the call panics, so
that no value comes back from it. -/
def loggerPanic : Option Unit := none

/-- Method `HTTPPool.Pick`; the result is `(PeerGetter, bool)` with `none` for the nil getter,
and the outer `none` is a panic. The statement `p.logger.Panicf("pick peer: %v", peer)` comes
before `return p.httpGetters[peer], true`. -/
def HTTPPool.Pick (p : HTTPPool) (key : String) : Option (Option httpGetter × Bool) :=
  let peer := p.peers.Get key
  if peer ≠ "" ∧ peer ≠ p.self then
    loggerPanic.bind (fun _ => some (p.httpGetters.lookup peer, true))
  else some (none, false)

/-- What `ServeHTTP` writes to the `http.ResponseWriter`: the status, the `Content-Type`
header and the body. -/
structure Response where
  status : Nat
  contentType : String
  body : List UInt8
deriving DecidableEq

/-- Go `http.Error(w, msg, code)`: a plain-text reply with the message and a line end. -/
def httpError (msg : String) (code : Nat) : Response :=
  { status := code, contentType := "text/plain; charset=utf-8",
    body := consistenthash.bytesOf (msg ++ "\n") }

/-- The text before the first `'/'` and the text after it; `none` when there is no `'/'`. -/
def cutSlash : List Char → Option (List Char × List Char)
  | [] => none
  | c :: cs => if c = '/' then some ([], cs) else (cutSlash cs).map (fun r => (c :: r.1, r.2))

/-- Go `strings.SplitN(s, "/", 2)`: one part when `s` has no `'/'`, else the text before the
first `'/'` and all the text after it. -/
def SplitN2 (s : List Char) : List String :=
  match cutSlash s with
  | none => [String.mk s]
  | some r => [String.mk r.1, String.mk r.2]

/-- The library and generated code that `ServeHTTP` calls and that is not part of the sources,
as parameters: `Marshal` is `proto.Marshal(&pb.Response{Value: v})` (package `gcachepb`) and
`ErrorText` is the method `Error()` of the errors. -/
structure Wire where
  Marshal : List UInt8 → List UInt8 × Option Error
  ErrorText : Error → String

/-- The registry after the group registered under `name` has become `g`: the registry holds
pointers, so it sees what `Get` did to the group. -/
def Groups.put (groups : Groups) (name : String) (g : Group) : Groups :=
  groups.map (fun e => if e.1 = name then (e.1, g) else e)

/-- Whether `Get(key)` calls `g.peers.Pick(key)`: whether the calls that `Get` adds to the
log of the group hold a `pick`. -/
def Group.callsPick (g : Group) (key : String) : Bool :=
  ((g.Get key).2.events.drop g.events.length).contains (Event.pick key)

/-- Method `Group.Get` when the `Pick` of the registered picker may panic: `pickPanics key`
tells whether `Pick(key)` panics instead of returning. `Get` panics (`none`) when it calls
`Pick` and `Pick` panics; otherwise it is `Group.Get`. -/
def Group.GetOrPanic (pickPanics : String → Bool) (g : Group) (key : String) :
    Option ((ByteView × Option Error) × Group) :=
  if g.callsPick key && pickPanics key then none else some (g.Get key)

/-- An `HTTPPool` as the picker of a group, where its `Pick` returns: `Pick` then returns
`(nil, false)`, for the branch of the other return ends in `Panicf`. -/
def HTTPPool.picker (_p : HTTPPool) : PeerPicker := { Pick := fun _ => none }

/-- An `HTTPPool` as the picker of a group: the keys on which its `Pick` panics. -/
def HTTPPool.pickPanics (p : HTTPPool) (key : String) : Bool := (p.Pick key).isNone

/-- Method `HTTPPool.ServeHTTP`, as a function of the request path `r.URL.Path`. The argument
`panics` tells, for the name of a group and a key, whether `Pick(key)` of the picker
registered with that group panics. The result `none` is a panic, with no status written:
the panic of `p.logger.Panicln` on a path that does not start with `p.basepath`, or the panic
of `group.Get(key)`. The log line `p.logger.Printf("%s, %s\n", r.Method, r.URL.Path)` has no
part in the response. The result holds the response and the registry, whose group has been
through `Get`. -/
def HTTPPool.ServeHTTP (w : Wire) (panics : String → String → Bool) (p : HTTPPool)
    (groups : Groups) (path : String) : Option (Response × Groups) :=
  (if p.basepath.toList.isPrefixOf path.toList then some () else loggerPanic).bind fun _ =>
    -- `parts := strings.SplitN(r.URL.Path[len(p.basepath):], "/", 2)`
    let parts := SplitN2 (path.toList.drop p.basepath.toList.length)
    if parts.length ≠ 2 then some (httpError "bad request" 400, groups)
    else
      let groupName := parts.getD 0 ""
      let key := parts.getD 1 ""
      match GetGroup groups groupName with
      | none => some (httpError ("no such group: " ++ groupName) 404, groups)
      | some group =>
        (group.GetOrPanic (panics groupName) key).bind fun r =>
          let groups1 := groups.put groupName r.2
          match r.1.2 with
          | some err => some (httpError (w.ErrorText err) 500, groups1)
          | none =>
            let m := w.Marshal r.1.1.ByteSlice
            match m.2 with
            | some err => some (httpError (w.ErrorText err) 500, groups1)
            | none =>
              some ({ status := 200, contentType := "application/octet-stream", body := m.1 },
                groups1)

/-- The number of segments of a path separated by `'/'`. -/
def segmentCount (s : String) : Nat := (s.toList.filter (fun c => c = '/')).length + 1

/-- An example of the parameters of `ServeHTTP`: an encoding that never fails, the value after
its tag and length, and a text for each error. -/
def exampleWire : Wire :=
  { Marshal := fun v => (10 :: UInt8.ofNat v.length :: v, none)
    ErrorText := fun e =>
      match e with
      | Error.ErrKey => "ErrKey"
      | Error.ErrGetter => "ErrGetter"
      | Error.other msg => msg }

/-- The pool of node `http://localhost:8001` whose only peer is `http://localhost:8002`. -/
def examplePool : HTTPPool := (NewHTTPPool "http://localhost:8001").Set ["http://localhost:8002"]

/-- The example group after `RegisterPeers(examplePool)`. -/
def exampleGroupWithPool : Group := { exampleGroup with peers := some examplePool.picker }

/-! ## Byte slices as references -/

namespace heap

/-- The backing arrays of the byte slices of a program, each known by its index. -/
abbrev Heap := List (List UInt8)

/-- A Go value of type `[]byte`: the window of `len` bytes at offset `off` of the backing
array `arr`. Two slices with the same `arr` share their bytes. -/
structure Slice where
  arr : Nat
  off : Nat
  len : Nat
deriving DecidableEq

/-- The bytes that a slice shows. -/
def Slice.bytes (h : Heap) (s : Slice) : List UInt8 := ((h.getD s.arr []).drop s.off).take s.len

/-- The slice lies inside its backing array. -/
def Slice.valid (h : Heap) (s : Slice) : Prop :=
  s.arr < h.length ∧ s.off + s.len ≤ (h.getD s.arr []).length

/-- Assignment `s[i] = x`; `none` is the panic on an index out of range. -/
def Slice.assign (h : Heap) (s : Slice) (i : Nat) (x : UInt8) : Option Heap :=
  if i < s.len then some (h.set s.arr ((h.getD s.arr []).set (s.off + i) x)) else none

/-- The struct `ByteView`, its field `b` a slice value. -/
structure ByteView where
  b : Slice
deriving DecidableEq

/-- Method `ByteView.Len`. -/
def ByteView.Len (bv : ByteView) : Int := bv.b.len

/-- Method `ByteView.ByteSlice`: `return bv.b`, the slice value itself. -/
def ByteView.ByteSlice (bv : ByteView) : Slice := bv.b

/-- Method `ByteView.String`: `string(bv.b)`, the bytes of the string. -/
def ByteView.String (h : Heap) (bv : ByteView) : List UInt8 := bv.b.bytes h

/-- Function `cloneBytes`: `make` allocates a new backing array, `copy` fills it. -/
def cloneBytes (h : Heap) (b : Slice) : Slice × Heap :=
  ({ arr := h.length, off := 0, len := b.len }, h ++ [b.bytes h])

/-- A heap with one backing array, the bytes of `"630"`. -/
def exampleHeap : Heap := [[54, 51, 48]]

/-- The `ByteView` of the whole of that array. -/
def exampleView : ByteView := { b := { arr := 0, off := 0, len := 3 } }

end heap

end gc

namespace consistenthash

/-! ## Binary search -/

/-- The result of the loop does not depend on the bound once the bound is at least `j - i`:
the loop of `sort.Search` ends within `j - i` iterations. -/
theorem searchLoop_fuel (f : Nat → Bool) :
    ∀ fuel fuel' i j, j - i ≤ fuel → j - i ≤ fuel' →
      searchLoop f fuel i j = searchLoop f fuel' i j := by
  intro fuel
  induction fuel with
  | zero =>
    intro fuel' i j h _
    cases fuel' with
    | zero => rfl
    | succ n =>
      unfold searchLoop
      rw [if_neg (by omega)]
  | succ n ih =>
    intro fuel' i j h h'
    cases fuel' with
    | zero =>
      unfold searchLoop
      rw [if_neg (by omega)]
    | succ n' =>
      unfold searchLoop
      by_cases hlt : i < j
      · simp only [hlt, if_true]
        cases hf : f ((i + j) / 2) with
        | false =>
          simp only [Bool.not_false, if_true]
          exact ih _ _ _ (by omega) (by omega)
        | true =>
          simp only [Bool.not_true, Bool.false_eq_true, if_false]
          exact ih _ _ _ (by omega) (by omega)
      · simp only [hlt, if_false]

theorem searchLoop_spec (f : Nat → Bool) (n : Nat)
    (mono : ∀ a b, a ≤ b → b < n → f a = true → f b = true) :
    ∀ fuel i j, i ≤ j → j ≤ n → j - i ≤ fuel →
      (∀ k, k < i → f k = false) → (∀ k, j ≤ k → k < n → f k = true) →
      searchLoop f fuel i j ≤ n ∧ (∀ k, k < searchLoop f fuel i j → f k = false) ∧
        (∀ k, searchLoop f fuel i j ≤ k → k < n → f k = true) := by
  intro fuel
  induction fuel with
  | zero =>
    intro i j hij hjn hfuel hlo hhi
    have : i = j := by omega
    subst this
    exact ⟨hjn, hlo, hhi⟩
  | succ fuel ih =>
    intro i j hij hjn hfuel hlo hhi
    unfold searchLoop
    by_cases hlt : i < j
    · simp only [hlt, if_true]
      have hmid : i ≤ (i + j) / 2 ∧ (i + j) / 2 < j := by omega
      cases hf : f ((i + j) / 2) with
      | false =>
        simp only [Bool.not_false, if_true]
        apply ih _ _ (by omega) hjn (by omega) _ hhi
        intro k hk
        cases hk' : f k with
        | false => rfl
        | true =>
          have := mono k ((i + j) / 2) (by omega) (by omega) hk'
          rw [hf] at this
          exact this.symm
      | true =>
        simp only [Bool.not_true, Bool.false_eq_true, if_false]
        apply ih _ _ hmid.1 (by omega) (by omega) hlo
        intro k hk hkn
        exact mono _ k hk hkn hf
    · have : i = j := by omega
      subst this
      simp only [lt_irrefl, if_false]
      exact ⟨hjn, hlo, hhi⟩

theorem getD_mono_of_sorted {a : List Int} (hs : a.Sorted (· ≤ ·)) {i j : Nat}
    (hij : i ≤ j) (hj : j < a.length) : a.getD i 0 ≤ a.getD j 0 := by
  have hi : i < a.length := lt_of_le_of_lt hij hj
  rw [List.getD_eq_getElem _ _ hi, List.getD_eq_getElem _ _ hj]
  rcases Nat.lt_or_eq_of_le hij with h | h
  · exact List.pairwise_iff_getElem.1 hs i j hi hj h
  · subst h; exact le_refl _

/-- On a sorted list `SearchInts` returns the number of elements below `x`. -/
theorem SearchInts_spec {a : List Int} (hs : a.Sorted (· ≤ ·)) (x : Int) :
    SearchInts a x ≤ a.length ∧ (∀ k, k < SearchInts a x → a.getD k 0 < x) ∧
      (∀ k, SearchInts a x ≤ k → k < a.length → x ≤ a.getD k 0) := by
  have h := searchLoop_spec (fun i => decide (a.getD i 0 ≥ x)) a.length
    (by
      intro p q hpq hq hp
      simp only [ge_iff_le, decide_eq_true_eq] at hp ⊢
      exact le_trans hp (getD_mono_of_sorted hs hpq hq))
    a.length 0 a.length (Nat.zero_le _) (le_refl _) (by omega)
    (by intro k hk; omega) (by intro k hk hk'; omega)
  refine ⟨h.1, ?_, ?_⟩
  · intro k hk
    have := h.2.1 k hk
    simpa using this
  · intro k hk hk'
    have := h.2.2 k hk hk'
    simpa using this



theorem mem_iff_getD {a : List Int} {q : Int} :
    q ∈ a ↔ ∃ j, j < a.length ∧ a.getD j 0 = q := by
  constructor
  · intro h
    obtain ⟨j, hj, rfl⟩ := List.getElem_of_mem h
    exact ⟨j, hj, List.getD_eq_getElem _ _ hj⟩
  · rintro ⟨j, hj, rfl⟩
    rw [List.getD_eq_getElem _ _ hj]
    exact List.getElem_mem hj

/-- On a sorted non-empty ring `Get` answers with the node of the successor position. -/
theorem Get_spec (m : Map) (key : String) (hs : m.keys.Sorted (· ≤ ·)) (hne : m.keys ≠ []) :
    ∃ p, IsSuccessor m.keys (m.hashInt key) p ∧ m.Get key = m.hashmap.index p := by
  have hlen : 0 < m.keys.length := List.length_pos.2 hne
  obtain ⟨h1, h2, h3⟩ := SearchInts_spec hs (m.hashInt key)
  have hget : m.Get key
      = m.hashmap.index (m.keys.getD (SearchInts m.keys (m.hashInt key) % m.keys.length) 0) := by
    unfold Map.Get SearchInts
    rw [if_neg (by omega)]
  refine ⟨_, ?_, hget⟩
  rcases Nat.lt_or_eq_of_le h1 with hlt | heq
  · rw [Nat.mod_eq_of_lt hlt]
    refine ⟨mem_iff_getD.2 ⟨_, hlt, rfl⟩, Or.inl ⟨h3 _ (le_refl _) hlt, ?_⟩⟩
    intro q hq hle
    obtain ⟨j, hj, rfl⟩ := mem_iff_getD.1 hq
    by_cases hjr : j < SearchInts m.keys (m.hashInt key)
    · have := h2 j hjr
      omega
    · exact getD_mono_of_sorted hs (by omega) hj
  · rw [heq, Nat.mod_self]
    refine ⟨mem_iff_getD.2 ⟨0, hlen, rfl⟩, Or.inr ⟨?_, ?_⟩⟩
    · intro q hq
      obtain ⟨j, hj, rfl⟩ := mem_iff_getD.1 hq
      exact h2 j (by omega)
    · intro q hq
      obtain ⟨j, hj, rfl⟩ := mem_iff_getD.1 hq
      exact getD_mono_of_sorted hs (Nat.zero_le _) hj

/-- The index expression `m.keys[idx%len(m.keys)]` of `Get` is in range on a non-empty ring,
so that the default of `getD` is never read there. -/
theorem Get_index_lt (m : Map) (idx : Nat) (hne : m.keys ≠ []) :
    idx % m.keys.length < m.keys.length :=
  Nat.mod_lt _ (List.length_pos.2 hne)

/-- The successor position depends only on which positions the ring holds. -/
theorem IsSuccessor.unique {ks ks' : List Int} {h p p' : Int}
    (hp : IsSuccessor ks h p) (hp' : IsSuccessor ks' h p') (hmem : ∀ x, x ∈ ks ↔ x ∈ ks') :
    p = p' := by
  obtain ⟨hin, hc⟩ := hp
  obtain ⟨hin', hc'⟩ := hp'
  have e1 := (hmem p).1 hin
  have e2 := (hmem p').2 hin'
  rcases hc with ⟨a1, a2⟩ | ⟨a1, a2⟩ <;> rcases hc' with ⟨b1, b2⟩ | ⟨b1, b2⟩
  · exact le_antisymm (a2 _ e2 b1) (b2 _ e1 a1)
  · have := b1 _ e1; omega
  · have := a1 _ e2; omega
  · exact le_antisymm (a2 _ e2) (b2 _ e1)

/-- Removing the element found by `SearchInts` from a sorted list that holds `x` erases `x`. -/
theorem take_drop_eq_erase : ∀ (a : List Int) (x : Int) (r : Nat), a.Sorted (· ≤ ·) → x ∈ a →
    (∀ k, k < r → a.getD k 0 < x) → (∀ k, r ≤ k → k < a.length → x ≤ a.getD k 0) →
    r < a.length ∧ a.take r ++ a.drop (r + 1) = a.erase x := by
  intro a
  induction a with
  | nil => intro x r _ hx; simp at hx
  | cons hd tl ih =>
    intro x r hs hx hlo hhi
    by_cases hhd : hd = x
    · subst hhd
      have hr : r = 0 := by
        by_contra hne
        have := hlo 0 (by omega)
        simp at this
      subst hr
      simp
    · have hxtl : x ∈ tl := by
        rcases List.mem_cons.1 hx with h | h
        · exact absurd h.symm hhd
        · exact h
      have hle : hd ≤ x := (List.sorted_cons.1 hs).1 x hxtl
      obtain ⟨r', rfl⟩ : ∃ r', r = r' + 1 := by
        cases r with
        | zero =>
          have := hhi 0 (le_refl _) (by simp)
          simp at this
          omega
        | succ r' => exact ⟨r', rfl⟩
      have := ih x r' (List.sorted_cons.1 hs).2 hxtl
        (by intro k hk; have := hlo (k + 1) (by omega); simpa using this)
        (by intro k hk hk'; have := hhi (k + 1) (by omega) (by simpa using hk'); simpa using this)
      refine ⟨by simpa using this.1, ?_⟩
      rw [List.erase_cons_tail (by simpa using hhd)]
      simp only [List.take_succ_cons, List.drop_succ_cons, List.cons_append]
      rw [this.2]

/-! ## Go maps -/

theorem IntMap.find_delete (h : IntMap) (k k' : Int) :
    (h.delete k).find k' = if k' = k then none else h.find k' := by
  unfold IntMap.delete IntMap.find
  induction h with
  | nil => simp
  | cons e tl ih =>
    obtain ⟨a, b⟩ := e
    by_cases hak : a = k
    · subst hak
      simp only [List.filter_cons, bne_self_eq_false, Bool.false_eq_true, if_false, ih]
      by_cases hk : k' = a
      · simp [hk]
      · have hb : (k' == a) = false := by simpa using hk
        simp [hk, List.lookup_cons, hb]
    · have hne : (a != k) = true := by simpa using hak
      simp only [List.filter_cons, hne, if_true, List.lookup_cons, ih]
      by_cases hk : k' = a
      · subst hk
        simp [hak]
      · have : (k' == a) = false := by simpa using hk
        simp [this]

theorem IntMap.find_set (h : IntMap) (k k' : Int) (v : String) :
    (h.set k v).find k' = if k' = k then some v else h.find k' := by
  by_cases hk : k' = k
  · subst hk
    simp [IntMap.set, IntMap.find, List.lookup_cons]
  · have hb : (k' == k) = false := by simpa using hk
    have := IntMap.find_delete h k k'
    simp only [hk, if_false] at this ⊢
    simpa [IntMap.set, IntMap.find, List.lookup_cons, hb] using this

theorem IntMap.setAll_cons (h : IntMap) (e : Int × String) (es : List (Int × String)) :
    h.setAll (e :: es) = (h.set e.1 e.2).setAll es := rfl

theorem IntMap.setAll_append (h : IntMap) (es es' : List (Int × String)) :
    h.setAll (es ++ es') = (h.setAll es).setAll es' := by
  simp [IntMap.setAll, List.foldl_append]

/-- Assignments to other keys leave the entry of `k` as it was. -/
theorem IntMap.find_setAll_of_not_mem (es : List (Int × String)) (h : IntMap) (k : Int)
    (hk : k ∉ es.map Prod.fst) : (h.setAll es).find k = h.find k := by
  induction es generalizing h with
  | nil => rfl
  | cons e es ih =>
    simp only [List.map_cons, List.mem_cons, not_or] at hk
    rw [IntMap.setAll_cons, ih _ hk.2, IntMap.find_set, if_neg hk.1]

/-- After assignments of which one is to `k`, `k` holds the value of one of them. -/
theorem IntMap.find_setAll_of_mem (es : List (Int × String)) (h : IntMap) (k : Int)
    (hk : k ∈ es.map Prod.fst) : ∃ v, (h.setAll es).find k = some v ∧ (k, v) ∈ es := by
  induction es generalizing h with
  | nil => simp at hk
  | cons e es ih =>
    rw [IntMap.setAll_cons]
    by_cases hmem : k ∈ es.map Prod.fst
    · obtain ⟨v, hv, hin⟩ := ih (h.set e.1 e.2) hmem
      exact ⟨v, hv, List.mem_cons_of_mem _ hin⟩
    · have hke : k = e.1 := by
        simp only [List.map_cons, List.mem_cons] at hk
        rcases hk with hk | hk
        · exact hk
        · exact absurd hk hmem
      refine ⟨e.2, ?_, ?_⟩
      · rw [IntMap.find_setAll_of_not_mem _ _ _ hmem, IntMap.find_set, if_pos hke]
      · rw [hke]; exact List.mem_cons_self _ _

theorem IntMap.find_deleteAll (ks : List Int) (h : IntMap) (k : Int) :
    (h.deleteAll ks).find k = if k ∈ ks then none else h.find k := by
  induction ks generalizing h with
  | nil => simp [IntMap.deleteAll]
  | cons a ks ih =>
    have : h.deleteAll (a :: ks) = (h.delete a).deleteAll ks := rfl
    rw [this, ih, IntMap.find_delete]
    by_cases h1 : k ∈ ks
    · simp [h1]
    · by_cases h2 : k = a
      · simp [h2]
      · simp [h1, h2]

theorem IntMap.index_eq_of_find {h : IntMap} {k : Int} {v : String} (hf : h.find k = some v) :
    h.index k = v := by
  simp [IntMap.index, hf]

/-! ## What `Add` builds -/

theorem foldl_addReplica (key : String) (is : List Nat) (m : Map) :
    is.foldl (fun m i => m.addReplica key i) m =
      { hash := m.hash, replicas := m.replicas,
        keys := m.keys ++ is.map (position m.hash key),
        hashmap := m.hashmap.setAll (is.map (fun i => (position m.hash key i, key))) } := by
  induction is generalizing m with
  | nil => simp [IntMap.setAll]
  | cons i is ih =>
    rw [List.foldl_cons, ih]
    simp [Map.addReplica, Map.hashInt, position, IntMap.setAll]

theorem addNode_eq (m : Map) (key : String) :
    m.addNode key =
      { hash := m.hash, replicas := m.replicas,
        keys := m.keys ++ nodePositions m.hash m.replicas key,
        hashmap := m.hashmap.setAll
          ((nodePositions m.hash m.replicas key).map (fun p => (p, key))) } := by
  unfold Map.addNode
  rw [foldl_addReplica]
  simp [nodePositions, List.map_map, Function.comp_def]

theorem foldl_addNode (keys : List String) (m : Map) :
    keys.foldl Map.addNode m =
      { hash := m.hash, replicas := m.replicas,
        keys := m.keys ++ positions m.hash m.replicas keys,
        hashmap := m.hashmap.setAll (entries m.hash m.replicas keys) } := by
  induction keys generalizing m with
  | nil => simp [positions, entries, IntMap.setAll]
  | cons key keys ih =>
    rw [List.foldl_cons, ih, addNode_eq]
    simp [positions, entries, IntMap.setAll_append]

/-- The ring after `Add`: the old positions and the new ones, sorted; the old map with the
new pairs written in order. -/
theorem Add_eq (m : Map) (keys : List String) :
    m.Add keys =
      { hash := m.hash, replicas := m.replicas,
        keys := sortInts (m.keys ++ positions m.hash m.replicas keys),
        hashmap := m.hashmap.setAll (entries m.hash m.replicas keys) } := by
  unfold Map.Add
  rw [foldl_addNode]

theorem sortInts_sorted (a : List Int) : (sortInts a).Sorted (· ≤ ·) :=
  List.sorted_insertionSort (fun x y : Int => x ≤ y) a

theorem sortInts_perm (a : List Int) : (sortInts a).Perm a :=
  List.perm_insertionSort (fun x y : Int => x ≤ y) a

theorem mem_sortInts {a : List Int} {x : Int} : x ∈ sortInts a ↔ x ∈ a :=
  (sortInts_perm a).mem_iff

theorem sortInts_eq_of_perm {a b : List Int} (h : a.Perm b) : sortInts a = sortInts b :=
  List.eq_of_perm_of_sorted (((sortInts_perm a).trans h).trans (sortInts_perm b).symm)
    (sortInts_sorted a) (sortInts_sorted b)

theorem sortInts_eq_self {a : List Int} (h : a.Sorted (· ≤ ·)) : sortInts a = a :=
  List.eq_of_perm_of_sorted (sortInts_perm a) (sortInts_sorted a) h

theorem positions_append (hash : Hash) (replicas : Int) (a b : List String) :
    positions hash replicas (a ++ b) = positions hash replicas a ++ positions hash replicas b := by
  simp [positions]

theorem entries_append (hash : Hash) (replicas : Int) (a b : List String) :
    entries hash replicas (a ++ b) = entries hash replicas a ++ entries hash replicas b := by
  simp [entries]

/-- Two `Add` calls build the ring of one `Add` call with both batches. -/
theorem Add_Add (m : Map) (a b : List String) : (m.Add a).Add b = m.Add (a ++ b) := by
  rw [Add_eq (m.Add a), Add_eq m a, Add_eq m (a ++ b)]
  simp only [positions_append, entries_append, IntMap.setAll_append]
  congr 1
  apply sortInts_eq_of_perm
  rw [← List.append_assoc]
  exact List.Perm.append_right _ (sortInts_perm _)

theorem Add_nil_of_sorted (m : Map) (h : m.keys.Sorted (· ≤ ·)) : m.Add [] = m := by
  rw [Add_eq]
  simp [positions, entries, IntMap.setAll, sortInts_eq_self h]

/-- A ring built by several `Add` calls is the ring of one `Add` call with all the nodes. -/
theorem built_eq (replicas : Int) (fn : Option Hash) (batches : List (List String)) :
    built replicas fn batches = (New replicas fn).Add batches.flatten := by
  unfold built
  have key : ∀ (bs : List (List String)) (m : Map), m.keys.Sorted (· ≤ ·) →
      bs.foldl Map.Add m = m.Add bs.flatten := by
    intro bs
    induction bs with
    | nil => intro m hm; simp [Add_nil_of_sorted m hm]
    | cons b bs ih =>
      intro m _
      rw [List.foldl_cons, ih (m.Add b) (by rw [Add_eq]; exact sortInts_sorted _), Add_Add]
      simp
  exact key batches _ (by simp [New])

theorem mem_positions {hash : Hash} {replicas : Int} {keys : List String} {p : Int} :
    p ∈ positions hash replicas keys ↔ ∃ a ∈ keys, p ∈ nodePositions hash replicas a := by
  simp [positions, List.mem_flatMap]

theorem mem_entries {hash : Hash} {replicas : Int} {keys : List String} {p : Int} {v : String} :
    (p, v) ∈ entries hash replicas keys ↔ v ∈ keys ∧ p ∈ nodePositions hash replicas v := by
  simp only [entries, List.mem_flatMap, List.mem_map, Prod.mk.injEq]
  constructor
  · rintro ⟨a, ha, q, hq, rfl, rfl⟩
    exact ⟨ha, hq⟩
  · rintro ⟨hv, hp⟩
    exact ⟨v, hv, p, hp, rfl, rfl⟩

theorem map_fst_entries (hash : Hash) (replicas : Int) (keys : List String) :
    (entries hash replicas keys).map Prod.fst = positions hash replicas keys := by
  induction keys with
  | nil => rfl
  | cons a keys ih =>
    have h1 : entries hash replicas (a :: keys)
        = (nodePositions hash replicas a).map (fun p => (p, a)) ++ entries hash replicas keys := by
      simp [entries]
    have h2 : positions hash replicas (a :: keys)
        = nodePositions hash replicas a ++ positions hash replicas keys := by
      simp [positions]
    rw [h1, h2, List.map_append, ih]
    simp [List.map_map, Function.comp_def]

/-! ## Sortedness of reachable rings -/

theorem removeReplica_keys_sorted {m m' : Map} {key : String} {i : Nat}
    (hs : m.keys.Sorted (· ≤ ·)) (h : m.removeReplica key i = some m') :
    m'.keys.Sorted (· ≤ ·) ∧ m'.hash = m.hash ∧ m'.replicas = m.replicas := by
  unfold Map.removeReplica at h
  simp only at h
  split at h
  · injection h with h
    subst h
    refine ⟨?_, rfl, rfl⟩
    simp only
    rw [← List.eraseIdx_eq_take_drop_succ]
    exact List.Pairwise.sublist (List.eraseIdx_sublist _ _) hs
  · cases h

theorem foldlM_removeReplica_sorted (key : String) :
    ∀ (is : List Nat) (m m' : Map), m.keys.Sorted (· ≤ ·) →
      is.foldlM (fun m i => m.removeReplica key i) m = some m' → m'.keys.Sorted (· ≤ ·) := by
  intro is
  induction is with
  | nil =>
    intro m m' hs h
    simp only [List.foldlM_nil] at h
    cases h
    exact hs
  | cons i is ih =>
    intro m m' hs h
    rw [List.foldlM_cons] at h
    cases h1 : m.removeReplica key i with
    | none => rw [h1] at h; cases h
    | some m1 =>
      rw [h1] at h
      exact ih m1 m' (removeReplica_keys_sorted hs h1).1 h

/-- Every reachable ring keeps `keys` in increasing order. -/
theorem Reachable.sorted {m : Map} (h : Reachable m) : m.keys.Sorted (· ≤ ·) := by
  induction h with
  | new replicas fn => simp [New]
  | add keys _ _ => rw [Add_eq]; exact sortInts_sorted _
  | remove key _ hr ih => exact foldlM_removeReplica_sorted key _ _ _ ih hr

theorem built_reachable (replicas : Int) (fn : Option Hash) (batches : List (List String)) :
    Reachable (built replicas fn batches) := by
  unfold built
  have key : ∀ (bs : List (List String)) (m : Map), Reachable m → Reachable (bs.foldl Map.Add m) := by
    intro bs
    induction bs with
    | nil => intro m hm; exact hm
    | cons b bs ih => intro m hm; exact ih _ (Reachable.add b hm)
  exact key batches _ (Reachable.new replicas fn)

theorem New_hash_replicas (replicas : Int) (fn : Option Hash) :
    (New replicas fn).replicas = replicas ∧ (New replicas fn).keys = [] ∧
      (New replicas fn).hashmap = [] := ⟨rfl, rfl, rfl⟩

/-- The fields of a ring built by `Add` calls. -/
theorem built_fields (replicas : Int) (fn : Option Hash) (batches : List (List String)) :
    (built replicas fn batches).hash = (New replicas fn).hash ∧
    (built replicas fn batches).replicas = replicas ∧
    (built replicas fn batches).keys
      = sortInts (positions (New replicas fn).hash replicas batches.flatten) ∧
    (built replicas fn batches).hashmap
      = IntMap.setAll [] (entries (New replicas fn).hash replicas batches.flatten) := by
  rw [built_eq, Add_eq]
  exact ⟨rfl, rfl, rfl, rfl⟩

/-- `Get` reads only the hash function, the positions and the entries of the map. -/
theorem Get_congr {m₁ m₂ : Map} (hh : m₁.hash = m₂.hash) (hk : m₁.keys = m₂.keys)
    (hm : ∀ p, m₁.hashmap.find p = m₂.hashmap.find p) (key : String) :
    m₁.Get key = m₂.Get key := by
  unfold Map.Get Map.hashInt IntMap.index
  rw [hh, hk]
  split
  · rfl
  · simp only [hm]

/-! ## Claims on the ring -/

/-- C1: on every non-empty ring built by `Add` calls, for every hash function and every key,
`Get(key)` is the node that `hashmap` holds for the successor position of `hash(key)`: the
smallest position `≥ hash(key)`, or the smallest position of the ring when none is. -/
theorem C1_Get_successor (replicas : Int) (fn : Option Hash) (batches : List (List String))
    (key : String) (hne : (built replicas fn batches).keys ≠ []) :
    ∃ p, IsSuccessor (built replicas fn batches).keys
        ((built replicas fn batches).hashInt key) p ∧
      (built replicas fn batches).hashmap.find p = some ((built replicas fn batches).Get key) := by
  obtain ⟨p, hp, hget⟩ :=
    Get_spec (built replicas fn batches) key (built_reachable replicas fn batches).sorted hne
  refine ⟨p, hp, ?_⟩
  obtain ⟨_, _, hk, hm⟩ := built_fields replicas fn batches
  have hmem : p ∈ positions (New replicas fn).hash replicas batches.flatten := by
    have := hp.1
    rw [hk] at this
    exact mem_sortInts.1 this
  rw [← map_fst_entries] at hmem
  obtain ⟨v, hv, _⟩ := IntMap.find_setAll_of_mem _ [] p hmem
  rw [hget, hm, IntMap.index_eq_of_find hv, hv]

/-- C1 at the ring of `TestHashing`, with the four lookups of the test. -/
theorem C1_Get_successor_witness :
    (built 3 (some testHash) [["2", "4", "8"]]).keys ≠ [] ∧
    (∃ p, IsSuccessor (built 3 (some testHash) [["2", "4", "8"]]).keys
        ((built 3 (some testHash) [["2", "4", "8"]]).hashInt "11") p ∧
      (built 3 (some testHash) [["2", "4", "8"]]).hashmap.find p
        = some ((built 3 (some testHash) [["2", "4", "8"]]).Get "11")) ∧
    (built 3 (some testHash) [["2", "4", "8"]]).Get "2" = "2" ∧
    (built 3 (some testHash) [["2", "4", "8"]]).Get "11" = "2" ∧
    (built 3 (some testHash) [["2", "4", "8"]]).Get "23" = "4" ∧
    (built 3 (some testHash) [["2", "4", "8"]]).Get "17" = "8" :=
  ⟨by decide, C1_Get_successor 3 (some testHash) [["2", "4", "8"]] "11" (by decide),
    by decide, by decide, by decide, by decide⟩

/-! ## What `Remove` does when the positions are present -/

theorem removeReplica_of_mem (m : Map) (key : String) (i : Nat) (hs : m.keys.Sorted (· ≤ ·))
    (hmem : position m.hash key i ∈ m.keys) :
    m.removeReplica key i =
      some { hash := m.hash, replicas := m.replicas,
             keys := m.keys.erase (position m.hash key i),
             hashmap := m.hashmap.delete (position m.hash key i) } := by
  obtain ⟨_, h2, h3⟩ := SearchInts_spec hs (position m.hash key i)
  obtain ⟨hlt, heq⟩ := take_drop_eq_erase m.keys _ _ hs hmem h2 h3
  unfold Map.removeReplica
  have hpos : m.hashInt (Itoa i ++ key) = position m.hash key i := rfl
  simp only [hpos]
  rw [if_pos (by omega), heq]

theorem foldlM_removeReplica (key : String) :
    ∀ (is : List Nat) (m : Map), m.keys.Sorted (· ≤ ·) →
      (is.map (position m.hash key)).Subperm m.keys →
      is.foldlM (fun m i => m.removeReplica key i) m =
        some { hash := m.hash, replicas := m.replicas,
               keys := m.keys.diff (is.map (position m.hash key)),
               hashmap := m.hashmap.deleteAll (is.map (position m.hash key)) } := by
  intro is
  induction is with
  | nil => intro m _ _; simp [IntMap.deleteAll]
  | cons i is ih =>
    intro m hs hsub
    have hmem : position m.hash key i ∈ m.keys :=
      hsub.subset (by simp)
    rw [List.foldlM_cons, removeReplica_of_mem m key i hs hmem]
    have hsub' : (is.map (position m.hash key)).Subperm (m.keys.erase (position m.hash key i)) := by
      have := List.Subperm.erase (position m.hash key i) hsub
      simpa using this
    have := ih { hash := m.hash, replicas := m.replicas,
                 keys := m.keys.erase (position m.hash key i),
                 hashmap := m.hashmap.delete (position m.hash key i) }
      (List.Pairwise.sublist (List.erase_sublist _ _) hs) hsub'
    simp only [Option.bind_eq_bind, Option.some_bind]
    rw [this]
    simp [IntMap.deleteAll]

/-- On a sorted ring that holds the positions of `key`, `Remove` returns, having taken these
positions out of `keys` and out of `hashmap`. -/
theorem Remove_eq (m : Map) (key : String) (hs : m.keys.Sorted (· ≤ ·))
    (hsub : (nodePositions m.hash m.replicas key).Subperm m.keys) :
    m.Remove key =
      some { hash := m.hash, replicas := m.replicas,
             keys := m.keys.diff (nodePositions m.hash m.replicas key),
             hashmap := m.hashmap.deleteAll (nodePositions m.hash m.replicas key) } := by
  unfold Map.Remove
  exact foldlM_removeReplica key _ m hs hsub

/-! ## Rings without collisions -/

theorem noCollision_of_nodup {hash : Hash} {replicas : Int} {keys : List String}
    (h : (positions hash replicas keys).Nodup) : NoCollision hash replicas keys := by
  intro a ha b hb p hpa hpb
  by_contra hne
  have hpw := (List.nodup_flatMap.1 h).2
  have hsym : Symmetric (fun x y : String =>
      List.Disjoint (nodePositions hash replicas x) (nodePositions hash replicas y)) :=
    fun _ _ hd => hd.symm
  exact (List.Pairwise.forall hsym hpw ha hb hne) hpa hpb

/-- Without collisions the map built by `Add` holds, for each position, the node it is a
position of. -/
theorem find_entries_iff {hash : Hash} {replicas : Int} {keys : List String}
    (hnc : NoCollision hash replicas keys) (p : Int) (v : String) :
    (IntMap.setAll [] (entries hash replicas keys)).find p = some v ↔
      v ∈ keys ∧ p ∈ nodePositions hash replicas v := by
  by_cases hmem : p ∈ (entries hash replicas keys).map Prod.fst
  · obtain ⟨w, hw, hin⟩ := IntMap.find_setAll_of_mem _ [] p hmem
    rw [hw]
    have hw' := mem_entries.1 hin
    constructor
    · intro h
      injection h with h
      subst h
      exact hw'
    · rintro ⟨hv, hp⟩
      rw [hnc w hw'.1 v hv p hw'.2 hp]
  · rw [IntMap.find_setAll_of_not_mem _ _ _ hmem]
    constructor
    · intro h
      simp [IntMap.find] at h
    · rintro ⟨hv, hp⟩
      exact absurd (by rw [map_fst_entries]; exact mem_positions.2 ⟨v, hv, hp⟩) hmem

theorem positions_filter (hash : Hash) (replicas : Int) (n : String) :
    ∀ keys : List String,
      (∀ x ∈ keys, x ≠ n → ∀ p ∈ nodePositions hash replicas x,
        p ∉ nodePositions hash replicas n) →
      (positions hash replicas keys).filter (fun p => decide (p ∉ nodePositions hash replicas n))
        = positions hash replicas (keys.filter (fun x => decide (x ≠ n))) := by
  intro keys
  induction keys with
  | nil => intro _; rfl
  | cons x keys ih =>
    intro h
    have hcons : positions hash replicas (x :: keys)
        = nodePositions hash replicas x ++ positions hash replicas keys := by
      simp [positions]
    rw [hcons, List.filter_append, ih (fun y hy => h y (List.mem_cons_of_mem _ hy))]
    by_cases hx : x = n
    · subst hx
      have h1 : (nodePositions hash replicas x).filter
          (fun p => decide (p ∉ nodePositions hash replicas x)) = [] := by
        simp [List.filter_eq_nil_iff]
      simp [h1]
    · have h1 : (nodePositions hash replicas x).filter
          (fun p => decide (p ∉ nodePositions hash replicas n)) = nodePositions hash replicas x := by
        rw [List.filter_eq_self]
        intro p hp
        simpa using h x (List.mem_cons_self _ _) hx p hp
      rw [h1, List.filter_cons_of_pos (by simpa using hx)]
      simp [positions]

/-- C2, as stated, fails when a node is added twice: with three replicas and the hash of the
test, the positions of the nodes `"2"` and `"4"` are pairwise distinct; after
`Add("2", "4")`, `Add("2")` and `Remove("2")` the ring still has the positions `2`, `12`, `22`
of `"2"` in `keys` and no entry for them in `hashmap`, so that `Get("1")` is `""`, where the
ring built from the other node alone has `keys = [4, 14, 24]` and answers `"4"`. -/
theorem C2_node_added_twice_not_undone :
    (positions testHash 3 ["2", "4"]).Nodup ∧
    "2" ∈ [["2", "4"], ["2"]].flatten ∧
    (built 3 (some testHash) [["2", "4"], ["2"]]).keys = [2, 2, 4, 12, 12, 14, 22, 22, 24] ∧
    ((built 3 (some testHash) [["2", "4"], ["2"]]).Remove "2").map
      (fun m => (m.keys, [2, 12, 22].map m.hashmap.find))
      = some ([2, 4, 12, 14, 22, 24], [none, none, none]) ∧
    (built 3 (some testHash) (withoutNode "2" [["2", "4"], ["2"]])).keys = [4, 14, 24] ∧
    ((built 3 (some testHash) [["2", "4"], ["2"]]).Remove "2").map (fun m => m.Get "1")
      = some "" ∧
    (built 3 (some testHash) (withoutNode "2" [["2", "4"], ["2"]])).Get "1" = "4" :=
  ⟨by decide, by decide, by decide, by decide, by decide, by decide, by decide⟩

/-- C3: minimal redistribution. On every reachable ring, for every node `n` and every key,
the owner `Get(key)` after `Add(n)` is the owner before the `Add`, or `n`. -/
theorem C3_minimal_redistribution (m : Map) (hm : Reachable m) (n key : String) :
    (m.Add [n]).Get key = m.Get key ∨ (m.Add [n]).Get key = n := by
  have hs := hm.sorted
  have hfields : (m.Add [n]).hash = m.hash ∧
      (m.Add [n]).keys = sortInts (m.keys ++ nodePositions m.hash m.replicas n) ∧
      (m.Add [n]).hashmap = m.hashmap.setAll
        ((nodePositions m.hash m.replicas n).map (fun p => (p, n))) := by
    rw [Add_eq]
    simp [positions, entries]
  obtain ⟨hh, hk, hmap⟩ := hfields
  have hs' : (m.Add [n]).keys.Sorted (· ≤ ·) := (Reachable.add [n] hm).sorted
  by_cases hne' : (m.Add [n]).keys = []
  · left
    have hnil : m.keys = [] := by
      have h1 : m.keys ++ nodePositions m.hash m.replicas n = [] := by
        apply List.eq_nil_of_length_eq_zero
        rw [← (sortInts_perm _).length_eq, ← hk, hne']
        rfl
      exact (List.append_eq_nil.1 h1).1
    simp [Map.Get, hne', hnil]
  · obtain ⟨p', hp', hget'⟩ := Get_spec (m.Add [n]) key hs' hne'
    have hint : (m.Add [n]).hashInt key = m.hashInt key := by
      simp [Map.hashInt, hh]
    rw [hint] at hp'
    have hmem' : p' ∈ m.keys ∨ p' ∈ nodePositions m.hash m.replicas n := by
      have := hp'.1
      rw [hk] at this
      exact List.mem_append.1 (mem_sortInts.1 this)
    have hsubset : ∀ q, q ∈ m.keys → q ∈ (m.Add [n]).keys := by
      intro q hq
      rw [hk]
      exact mem_sortInts.2 (List.mem_append_left _ hq)
    by_cases hnew : p' ∈ nodePositions m.hash m.replicas n
    · right
      have hin : p' ∈ ((nodePositions m.hash m.replicas n).map (fun p => (p, n))).map Prod.fst := by
        simpa [List.map_map, Function.comp_def] using hnew
      obtain ⟨v, hv, hvin⟩ := IntMap.find_setAll_of_mem _ m.hashmap p' hin
      have hvn : v = n := by
        obtain ⟨q, _, hq⟩ := List.mem_map.1 hvin
        exact (Prod.mk.inj hq).2.symm
      rw [hget', hmap, IntMap.index_eq_of_find hv, hvn]
    · left
      have hold : p' ∈ m.keys := hmem'.resolve_right hnew
      have hne : m.keys ≠ [] := List.ne_nil_of_mem hold
      obtain ⟨p, hp, hget⟩ := Get_spec m key hs hne
      have hsucc : IsSuccessor m.keys (m.hashInt key) p' := by
        refine ⟨hold, ?_⟩
        rcases hp'.2 with ⟨a1, a2⟩ | ⟨a1, a2⟩
        · exact Or.inl ⟨a1, fun q hq hle => a2 q (hsubset q hq) hle⟩
        · exact Or.inr ⟨fun q hq => a1 q (hsubset q hq), fun q hq => a2 q (hsubset q hq)⟩
      have hpp : p = p' := hp.unique hsucc (fun _ => Iff.rfl)
      have hnin : p' ∉ ((nodePositions m.hash m.replicas n).map (fun p => (p, n))).map Prod.fst := by
        simpa [List.map_map, Function.comp_def] using hnew
      rw [hget', hget, hpp, hmap]
      unfold IntMap.index
      rw [IntMap.find_setAll_of_not_mem _ _ _ hnin]

/-- C3 at the ring of `TestHashing`, where adding node `"5"` moves key `"5"` from `"8"` to
`"5"` and leaves key `"11"` with `"2"`. -/
theorem C3_minimal_redistribution_witness :
    Reachable testRing ∧
    ((testRing.Add ["5"]).Get "5" = testRing.Get "5" ∨ (testRing.Add ["5"]).Get "5" = "5") ∧
    testRing.Get "5" = "8" ∧ (testRing.Add ["5"]).Get "5" = "5" ∧
    testRing.Get "11" = "2" ∧ (testRing.Add ["5"]).Get "11" = "2" :=
  ⟨Reachable.add ["2", "4", "8"] (Reachable.new 3 (some testHash)),
    C3_minimal_redistribution testRing
      (Reachable.add ["2", "4", "8"] (Reachable.new 3 (some testHash))) "5" "5",
    by decide, by decide, by decide, by decide⟩

/-- C4, as stated, fails: with one replica and the hash of the test, the nodes `"2"` and
`"02"` share position `2`, and the two orders of adding them disagree on the owner of key
`"1"`: the node added last owns the position. -/
theorem C4_order_dependence_under_collision :
    List.Perm ["2", "02"] ["02", "2"] ∧
    (built 1 (some testHash) [["2", "02"]]).Get "1" = "02" ∧
    (built 1 (some testHash) [["02", "2"]]).Get "1" = "2" ∧
    (built 1 (some testHash) [["2", "02"]]).Get "1"
      ≠ (built 1 (some testHash) [["02", "2"]]).Get "1" :=
  ⟨List.Perm.swap _ _ _, by decide, by decide, by decide⟩

/-- C4, amended: any two rings built by `Add` calls (one call or several, in any order) from
node lists with the same members give the same `Get` answer for every key, provided no two
different nodes share a virtual position. -/
theorem C4_Get_order_independent (replicas : Int) (fn : Option Hash)
    (batches₁ batches₂ : List (List String))
    (hsame : ∀ x, x ∈ batches₁.flatten ↔ x ∈ batches₂.flatten)
    (hnc : NoCollision (New replicas fn).hash replicas batches₁.flatten) (key : String) :
    (built replicas fn batches₁).Get key = (built replicas fn batches₂).Get key := by
  obtain ⟨hh₁, _, hk₁, hm₁⟩ := built_fields replicas fn batches₁
  obtain ⟨hh₂, _, hk₂, hm₂⟩ := built_fields replicas fn batches₂
  have hnc₂ : NoCollision (New replicas fn).hash replicas batches₂.flatten :=
    fun a ha b hb p hpa hpb => hnc a ((hsame a).2 ha) b ((hsame b).2 hb) p hpa hpb
  have hmem : ∀ x, x ∈ (built replicas fn batches₁).keys ↔ x ∈ (built replicas fn batches₂).keys := by
    intro x
    rw [hk₁, hk₂, mem_sortInts, mem_sortInts, mem_positions, mem_positions]
    constructor
    · rintro ⟨a, ha, hp⟩; exact ⟨a, (hsame a).1 ha, hp⟩
    · rintro ⟨a, ha, hp⟩; exact ⟨a, (hsame a).2 ha, hp⟩
  have hfind : ∀ p, (built replicas fn batches₁).hashmap.find p
      = (built replicas fn batches₂).hashmap.find p := by
    intro p
    apply Option.ext
    intro v
    rw [Option.mem_def, Option.mem_def, hm₁, hm₂, find_entries_iff hnc, find_entries_iff hnc₂,
      hsame v]
  by_cases hne₁ : (built replicas fn batches₁).keys = []
  · have hne₂ : (built replicas fn batches₂).keys = [] := by
      apply List.eq_nil_iff_forall_not_mem.2
      intro x hx
      have := (hmem x).2 hx
      rw [hne₁] at this
      cases this
    simp [Map.Get, hne₁, hne₂]
  · have hne₂ : (built replicas fn batches₂).keys ≠ [] := by
      obtain ⟨x, hx⟩ := List.exists_mem_of_ne_nil _ hne₁
      exact List.ne_nil_of_mem ((hmem x).1 hx)
    obtain ⟨p₁, hp₁, hg₁⟩ := Get_spec _ key (built_reachable replicas fn batches₁).sorted hne₁
    obtain ⟨p₂, hp₂, hg₂⟩ := Get_spec _ key (built_reachable replicas fn batches₂).sorted hne₂
    have hint : (built replicas fn batches₂).hashInt key
        = (built replicas fn batches₁).hashInt key := by
      simp [Map.hashInt, hh₁, hh₂]
    rw [hint] at hp₂
    rw [hg₁, hg₂, hp₁.unique hp₂ hmem]
    unfold IntMap.index
    rw [hfind]

/-- C4 amended, at the nodes of `TestHashing` added in two orders, the second over two
`Add` calls. -/
theorem C4_Get_order_independent_witness :
    (∀ x, x ∈ [["2", "4", "8"]].flatten ↔ x ∈ [["8"], ["4", "2"]].flatten) ∧
    NoCollision (New 3 (some testHash)).hash 3 [["2", "4", "8"]].flatten ∧
    (built 3 (some testHash) [["2", "4", "8"]]).Get "11"
      = (built 3 (some testHash) [["8"], ["4", "2"]]).Get "11" ∧
    (built 3 (some testHash) [["8"], ["4", "2"]]).Get "11" = "2" :=
  ⟨by intro x; simp only [List.flatten, List.append_nil, List.mem_cons, List.mem_append,
      List.mem_singleton, List.not_mem_nil, or_false]; tauto,
    noCollision_of_nodup (by decide),
    C4_Get_order_independent 3 (some testHash) [["2", "4", "8"]] [["8"], ["4", "2"]]
      (by intro x; simp only [List.flatten, List.append_nil, List.mem_cons, List.mem_append,
        List.mem_singleton, List.not_mem_nil, or_false]; tauto)
      (noCollision_of_nodup (by decide)) "11",
    by decide⟩

/-! ## Placement, safety of `Remove`, sortedness: claims C14, C16, C18, C19 -/

/-- After `Add` the last node of the list that has position `p` is the node `hashmap` holds
for `p`. -/
theorem find_entries_last (hash : Hash) (replicas : Int) (h : IntMap)
    (pre post : List String) (node : String) (p : Int)
    (hp : p ∈ nodePositions hash replicas node) (hpost : p ∉ positions hash replicas post) :
    (h.setAll (entries hash replicas (pre ++ node :: post))).find p = some node := by
  have hsplit : entries hash replicas (pre ++ node :: post)
      = entries hash replicas pre ++ (entries hash replicas [node] ++ entries hash replicas post) := by
    rw [← entries_append, ← entries_append]
    rfl
  rw [hsplit, IntMap.setAll_append, IntMap.setAll_append,
    IntMap.find_setAll_of_not_mem _ _ _ (by rw [map_fst_entries]; exact hpost)]
  have hin : p ∈ (entries hash replicas [node]).map Prod.fst := by
    rw [map_fst_entries]
    exact mem_positions.2 ⟨node, List.mem_singleton.2 rfl, hp⟩
  obtain ⟨v, hv, hvin⟩ := IntMap.find_setAll_of_mem _ (h.setAll (entries hash replicas pre)) p hin
  rw [hv, List.mem_singleton.1 (mem_entries.1 hvin).1]

/-- C14, as stated, fails: with one replica and the hash of the test, position `2` is the
position of node `"2"`, and after `Add("2", "02")` `hashmap` maps it to `"02"`. -/
theorem C14_collision_overwrites :
    "2" ∈ ["2", "02"] ∧ (2 : Int) ∈ nodePositions testHash 1 "2" ∧
    ((New 1 (some testHash)).Add ["2", "02"]).keys = [2, 2] ∧
    ((New 1 (some testHash)).Add ["2", "02"]).hashmap.find 2 = some "02" ∧
    ((New 1 (some testHash)).Add ["2", "02"]).hashmap.find 2 ≠ some "2" :=
  ⟨by decide, by decide, by decide, by decide, by decide⟩

/-- C14, amended: after `Add(nodes...)` on an empty ring with `R` replicas, `keys` is the
ascending sort of the positions `hash(decimal(i) ++ node)` of every node of the list and every
`i` in `[0, R)`; every entry of `hashmap` maps a position to a node of the list that has this
position; a position shared by several nodes is mapped to the last of them in the list; and
when no two different nodes share a position, every position is mapped to its node. -/
theorem C14_Add_placement (replicas : Int) (fn : Option Hash) (nodes : List String) :
    ((New replicas fn).Add nodes).keys = sortInts (positions (New replicas fn).hash replicas nodes) ∧
    ((New replicas fn).Add nodes).keys.Sorted (· ≤ ·) ∧
    ((New replicas fn).Add nodes).keys.Perm (positions (New replicas fn).hash replicas nodes) ∧
    (∀ p v, ((New replicas fn).Add nodes).hashmap.find p = some v →
      v ∈ nodes ∧ p ∈ nodePositions (New replicas fn).hash replicas v) ∧
    (∀ pre node post p, nodes = pre ++ node :: post →
      p ∈ nodePositions (New replicas fn).hash replicas node →
      p ∉ positions (New replicas fn).hash replicas post →
      ((New replicas fn).Add nodes).hashmap.find p = some node) ∧
    (NoCollision (New replicas fn).hash replicas nodes → ∀ node ∈ nodes,
      ∀ p ∈ nodePositions (New replicas fn).hash replicas node,
        ((New replicas fn).Add nodes).hashmap.find p = some node) := by
  have hk : ((New replicas fn).Add nodes).keys
      = sortInts (positions (New replicas fn).hash replicas nodes) := by
    rw [Add_eq]; rfl
  have hm : ((New replicas fn).Add nodes).hashmap
      = IntMap.setAll [] (entries (New replicas fn).hash replicas nodes) := by
    rw [Add_eq]; rfl
  refine ⟨hk, ?_, ?_, ?_, ?_, ?_⟩
  · rw [hk]; exact sortInts_sorted _
  · rw [hk]; exact sortInts_perm _
  · intro p v hv
    rw [hm] at hv
    by_cases hmem : p ∈ (entries (New replicas fn).hash replicas nodes).map Prod.fst
    · obtain ⟨w, hw, hin⟩ := IntMap.find_setAll_of_mem _ [] p hmem
      rw [hw] at hv
      injection hv with hv
      subst hv
      exact mem_entries.1 hin
    · rw [IntMap.find_setAll_of_not_mem _ _ _ hmem] at hv
      simp [IntMap.find] at hv
  · intro pre node post p hnodes hp hpost
    rw [hm, hnodes]
    exact find_entries_last _ _ _ pre post node p hp hpost
  · intro hnc node hnode p hp
    rw [hm]
    exact (find_entries_iff hnc p node).2 ⟨hnode, hp⟩

/-- C14 at the ring of `TestHashing`: the nine positions of the test and their nodes. -/
theorem C14_Add_placement_witness :
    ((New 3 (some testHash)).Add ["2", "4", "8"]).keys = [2, 4, 8, 12, 14, 18, 22, 24, 28] ∧
    ((New 3 (some testHash)).Add ["2", "4", "8"]).keys
      = sortInts (positions (New 3 (some testHash)).hash 3 ["2", "4", "8"]) ∧
    ((New 3 (some testHash)).Add ["2", "4", "8"]).hashmap.find 14 = some "4" ∧
    ((New 3 (some testHash)).Add ["2", "4", "8"]).hashmap.find 28 = some "8" :=
  ⟨by decide, (C14_Add_placement 3 (some testHash) ["2", "4", "8"]).1, by decide, by decide⟩

/-- C16: on a ring with no positions `Get` returns the empty string, for every key, every hash
function and every content of `hashmap`: the test `len(m.keys) == 0` returns before the search
and before the index `idx % len(m.keys)` is formed. -/
theorem C16_Get_empty_ring (m : Map) (key : String) (h : m.keys = []) : m.Get key = "" := by
  unfold Map.Get
  rw [if_pos (by rw [h]; rfl)]

/-- C16 at a new ring, and at a ring whose only node has been removed. -/
theorem C16_Get_empty_ring_witness :
    (New 3 (some testHash)).keys = [] ∧ (New 3 (some testHash)).Get "11" = "" ∧
    (((New 3 (some testHash)).Add ["2"]).Remove "2").map (fun m => (m.keys, m.Get "11"))
      = some ([], "") :=
  ⟨rfl, C16_Get_empty_ring (New 3 (some testHash)) "11" rfl, by decide⟩

/-- C18, as stated, fails in its last part: with two replicas and the hash of the test, both
positions of the node `"99999999999999999999"` are `4294967295`, which is present in the ring
of node `"4294967295"`, and `Remove` of that node slices `keys` past its end. -/
theorem C18_present_positions_panic :
    ((New 2 (some testHash)).Add ["4294967295"]).keys = [1410065407, 4294967295] ∧
    nodePositions testHash 2 "99999999999999999999" = [4294967295, 4294967295] ∧
    (∀ p ∈ nodePositions testHash 2 "99999999999999999999",
      p ∈ ((New 2 (some testHash)).Add ["4294967295"]).keys) ∧
    (((New 2 (some testHash)).Add ["4294967295"]).Remove "99999999999999999999").isNone = true :=
  ⟨by decide, by decide, by decide, by decide⟩

/-- C18, amended: `Remove` is unsafe on a node whose positions are not in the ring. On the ring
of `TestHashing`, `Remove("7")` of the node `"7"`, never added, takes the positions `8`, `18`
and `28` of node `"8"` out of `keys` while `hashmap` keeps them, and `Remove("9")` slices
`keys` past its end. On every reachable ring, for every node whose recomputed positions each
have an entry of their own in `keys` (counted with repetitions), `Remove` returns. -/
theorem C18_Remove_safety (m : Map) (hm : Reachable m) (key : String)
    (hsub : (nodePositions m.hash m.replicas key).Subperm m.keys) :
    (m.Remove key).isSome = true ∧
    "7" ∉ ["2", "4", "8"] ∧ nodePositions testHash 3 "8" = [8, 18, 28] ∧
    (testRing.Remove "7").map (fun m' => m'.keys) = some [2, 4, 12, 14, 22, 24] ∧
    (testRing.Remove "7").map (fun m' => [8, 18, 28].map m'.hashmap.find)
      = some [some "8", some "8", some "8"] ∧
    "9" ∉ ["2", "4", "8"] ∧ (testRing.Remove "9").isNone = true := by
  refine ⟨?_, by decide, by decide, by decide, by decide, by decide, by decide⟩
  rw [Remove_eq m key hm.sorted hsub]
  rfl

/-- C18 at the ring of `TestHashing` and its node `"2"`. -/
theorem C18_Remove_safety_witness :
    Reachable testRing ∧
    (nodePositions testRing.hash testRing.replicas "2").Subperm testRing.keys ∧
    (testRing.Remove "2").isSome = true :=
  ⟨Reachable.add ["2", "4", "8"] (Reachable.new 3 (some testHash)),
    List.subperm_of_subset (by decide) (by decide),
    (C18_Remove_safety testRing
      (Reachable.add ["2", "4", "8"] (Reachable.new 3 (some testHash))) "2"
      (List.subperm_of_subset (by decide) (by decide))).1⟩

/-- C19: `keys` is in ascending order on every reachable ring, that is after `New`, after every
`Add` and after every `Remove` that returns; this is what the binary searches of `Get` and
`Remove` rely on: on such a ring `SearchInts` returns the number of positions below `x`. -/
theorem C19_keys_sorted (m : Map) (hm : Reachable m) :
    m.keys.Sorted (· ≤ ·) ∧
    (∀ nodes, (m.Add nodes).keys.Sorted (· ≤ ·)) ∧
    (∀ key m', m.Remove key = some m' → m'.keys.Sorted (· ≤ ·)) ∧
    (∀ x, SearchInts m.keys x ≤ m.keys.length ∧
      (∀ k, k < SearchInts m.keys x → m.keys.getD k 0 < x) ∧
      (∀ k, SearchInts m.keys x ≤ k → k < m.keys.length → x ≤ m.keys.getD k 0)) := by
  refine ⟨hm.sorted, ?_, ?_, ?_⟩
  · intro nodes
    exact (Reachable.add nodes hm).sorted
  · intro key m' h
    exact (Reachable.remove key hm h).sorted
  · intro x
    exact SearchInts_spec hm.sorted x

/-- C19 at the ring of `TestHashing`, before and after `Remove("2")`. -/
theorem C19_keys_sorted_witness :
    Reachable testRing ∧ testRing.keys.Sorted (· ≤ ·) ∧
    testRing.keys = [2, 4, 8, 12, 14, 18, 22, 24, 28] ∧
    (testRing.Remove "2").map (fun m => m.keys) = some [4, 8, 14, 18, 24, 28] :=
  ⟨Reachable.add ["2", "4", "8"] (Reachable.new 3 (some testHash)),
    (C19_keys_sorted testRing
      (Reachable.add ["2", "4", "8"] (Reachable.new 3 (some testHash)))).1,
    by decide, by decide⟩

/-! ## The size of the ring: claim C15 -/

theorem mem_nodePositions {hash : Hash} {replicas : Int} {a : String} {p : Int} :
    p ∈ nodePositions hash replicas a ↔ ∃ i, i < replicas.toNat ∧ position hash a i = p := by
  simp [nodePositions, List.mem_map, List.mem_range]

theorem length_nodePositions (hash : Hash) (replicas : Int) (a : String) :
    (nodePositions hash replicas a).length = replicas.toNat := by
  simp [nodePositions]

theorem length_positions (hash : Hash) (replicas : Int) (S : List String) :
    (positions hash replicas S).length = replicas.toNat * S.length := by
  induction S with
  | nil => simp [positions]
  | cons a S ih =>
    have h : positions hash replicas (a :: S)
        = nodePositions hash replicas a ++ positions hash replicas S := by
      simp [positions]
    rw [h, List.length_append, ih, length_nodePositions, List.length_cons]
    ring

/-- Without collisions the positions of a list of nodes without repetition are pairwise
distinct. -/
theorem positions_nodup {hash : Hash} {replicas : Int} {U S : List String}
    (hd : DistinctPositions hash replicas U) (hS : S.Nodup) (hsub : ∀ x ∈ S, x ∈ U) :
    (positions hash replicas S).Nodup := by
  unfold positions
  rw [List.nodup_flatMap]
  constructor
  · intro x hx
    unfold nodePositions
    apply List.Nodup.map_on _ (List.nodup_range _)
    intro i hi j hj hij
    exact (hd x (hsub x hx) x (hsub x hx) i j (List.mem_range.1 hi) (List.mem_range.1 hj) hij).2
  · apply List.Pairwise.imp_of_mem _ hS
    intro a b ha hb hne p hpa hpb
    obtain ⟨i, hi, rfl⟩ := mem_nodePositions.1 hpa
    obtain ⟨j, hj, hij⟩ := mem_nodePositions.1 hpb
    exact hne (hd a (hsub a ha) b (hsub b hb) i j hi hj hij.symm).1

theorem IntMap.mem_keys_iff (h : IntMap) (p : Int) :
    p ∈ h.map Prod.fst ↔ h.find p ≠ none := by
  unfold IntMap.find
  rw [Ne, List.lookup_eq_none_iff]
  simp only [List.mem_map, bne_iff_ne, ne_eq, not_forall, Classical.not_imp, not_not]
  constructor
  · rintro ⟨e, he, rfl⟩
    exact ⟨e, he, rfl⟩
  · rintro ⟨e, he, hpe⟩
    exact ⟨e, he, hpe.symm⟩

theorem IntMap.nodup_delete (h : IntMap) (k : Int) (hn : (h.map Prod.fst).Nodup) :
    ((h.delete k).map Prod.fst).Nodup :=
  List.Nodup.sublist (List.Sublist.map _ (List.filter_sublist _)) hn

theorem IntMap.nodup_set (h : IntMap) (k : Int) (v : String) (hn : (h.map Prod.fst).Nodup) :
    ((h.set k v).map Prod.fst).Nodup := by
  unfold IntMap.set
  rw [List.map_cons, List.nodup_cons]
  refine ⟨?_, IntMap.nodup_delete h k hn⟩
  rw [IntMap.mem_keys_iff, IntMap.find_delete]
  simp

theorem IntMap.nodup_setAll (es : List (Int × String)) (h : IntMap)
    (hn : (h.map Prod.fst).Nodup) : ((h.setAll es).map Prod.fst).Nodup := by
  induction es generalizing h with
  | nil => exact hn
  | cons e es ih =>
    rw [IntMap.setAll_cons]
    exact ih _ (IntMap.nodup_set h e.1 e.2 hn)

theorem IntMap.nodup_deleteAll (ks : List Int) (h : IntMap)
    (hn : (h.map Prod.fst).Nodup) : ((h.deleteAll ks).map Prod.fst).Nodup := by
  induction ks generalizing h with
  | nil => exact hn
  | cons k ks ih => exact ih _ (IntMap.nodup_delete h k hn)

theorem IntMap.mem_keys_setAll (es : List (Int × String)) (h : IntMap) (p : Int) :
    p ∈ (h.setAll es).map Prod.fst ↔ p ∈ es.map Prod.fst ∨ p ∈ h.map Prod.fst := by
  by_cases hmem : p ∈ es.map Prod.fst
  · obtain ⟨v, hv, _⟩ := IntMap.find_setAll_of_mem es h p hmem
    rw [IntMap.mem_keys_iff, hv]
    simp [hmem]
  · rw [IntMap.mem_keys_iff, IntMap.find_setAll_of_not_mem es h p hmem, ← IntMap.mem_keys_iff]
    simp [hmem]

theorem IntMap.mem_keys_deleteAll (ks : List Int) (h : IntMap) (p : Int) :
    p ∈ (h.deleteAll ks).map Prod.fst ↔ p ∈ h.map Prod.fst ∧ p ∉ ks := by
  rw [IntMap.mem_keys_iff, IntMap.find_deleteAll, IntMap.mem_keys_iff]
  by_cases hp : p ∈ ks
  · simp [hp]
  · simp [hp]

/-- A ring under the invariant has `R` positions and `R` map entries for each node. -/
theorem SizeInv.size {hash : Hash} {replicas : Int} {U : List String} {m : Map}
    {S : List String} (hd : DistinctPositions hash replicas U) (hsub : ∀ x ∈ S, x ∈ U)
    (h : SizeInv hash replicas m S) :
    m.keys.length = replicas.toNat * S.length ∧
      m.hashmap.length = replicas.toNat * S.length := by
  obtain ⟨_, _, _, hperm, hdn, hdm, hS⟩ := h
  have hkl : m.keys.length = replicas.toNat * S.length := by
    rw [hperm.length_eq, length_positions]
  have hkn : m.keys.Nodup := hperm.nodup_iff.2 (positions_nodup hd hS hsub)
  refine ⟨hkl, ?_⟩
  have : (m.hashmap.map Prod.fst).Perm m.keys := (List.perm_ext_iff_of_nodup hdn hkn).2 hdm
  rw [← hkl, ← this.length_eq, List.length_map]

theorem SizeInv.new (replicas : Int) (fn : Option Hash) :
    SizeInv (New replicas fn).hash replicas (New replicas fn) [] := by
  refine ⟨rfl, rfl, ?_, ?_, ?_, ?_, List.nodup_nil⟩
  · simp [New]
  · simp [New, positions]
  · simp [New]
  · intro p; simp [New]

theorem SizeInv.add {hash : Hash} {replicas : Int} {m : Map} {S : List String}
    (h : SizeInv hash replicas m S) (keys : List String) (hk : keys.Nodup)
    (hfresh : ∀ x ∈ keys, x ∉ S) : SizeInv hash replicas (m.Add keys) (S ++ keys) := by
  obtain ⟨hh, hr, _, hperm, hdn, hdm, hS⟩ := h
  rw [Add_eq, hh, hr]
  refine ⟨rfl, rfl, sortInts_sorted _, ?_, IntMap.nodup_setAll _ _ hdn, ?_, ?_⟩
  · rw [positions_append]
    exact (sortInts_perm _).trans (List.Perm.append_right _ hperm)
  · intro p
    simp only
    rw [IntMap.mem_keys_setAll, map_fst_entries, mem_sortInts, List.mem_append, hdm, or_comm]
  · exact List.Nodup.append hS hk (fun x hx hx' => hfresh x hx' hx)

theorem SizeInv.remove {hash : Hash} {replicas : Int} {U : List String} {m : Map}
    {S : List String} (hd : DistinctPositions hash replicas U) (hsub : ∀ x ∈ S, x ∈ U)
    (h : SizeInv hash replicas m S) (key : String) (hkey : key ∈ S) :
    ∃ m', m.Remove key = some m' ∧
      SizeInv hash replicas m' (S.filter (fun x => decide (x ≠ key))) := by
  obtain ⟨hh, hr, hs, hperm, hdn, hdm, hS⟩ := h
  have hpn := positions_nodup hd hS hsub
  have hkn : m.keys.Nodup := hperm.nodup_iff.2 hpn
  have hnpos : (nodePositions hash replicas key).Nodup :=
    (List.nodup_flatMap.1 hpn).1 key hkey
  have hsubp : (nodePositions m.hash m.replicas key).Subperm m.keys := by
    rw [hh, hr]
    apply List.subperm_of_subset hnpos
    intro p hp
    exact hperm.mem_iff.2 (mem_positions.2 ⟨key, hkey, hp⟩)
  have hrem := Remove_eq m key hs hsubp
  rw [hh, hr] at hrem
  have hdiff : m.keys.diff (nodePositions hash replicas key)
      = m.keys.filter (fun p => decide (p ∉ nodePositions hash replicas key)) :=
    List.Nodup.diff_eq_filter hkn
  have hdisj : ∀ x ∈ S, x ≠ key → ∀ p ∈ nodePositions hash replicas x,
      p ∉ nodePositions hash replicas key := by
    intro x hx hne p hp hp'
    obtain ⟨i, hi, rfl⟩ := mem_nodePositions.1 hp
    obtain ⟨j, hj, hij⟩ := mem_nodePositions.1 hp'
    exact hne (hd x (hsub x hx) key (hsub key hkey) i j hi hj hij.symm).1
  refine ⟨_, hrem, rfl, rfl, ?_, ?_, IntMap.nodup_deleteAll _ _ hdn, ?_, hS.filter _⟩
  · simp only
    rw [hdiff]
    exact List.Pairwise.sublist (List.filter_sublist _) hs
  · simp only
    rw [hdiff, ← positions_filter _ _ _ _ hdisj]
    exact hperm.filter _
  · intro p
    simp only
    rw [IntMap.mem_keys_deleteAll, hdm, hdiff, List.mem_filter]
    simp

/-- A sequence of calls that keeps the nodes of the ring distinct keeps the invariant. -/
theorem SizeInv.runOps {hash : Hash} {replicas : Int} {U : List String}
    (hd : DistinctPositions hash replicas U) :
    ∀ (ops : List RingOp) (m : Map) (S : List String), SizeInv hash replicas m S →
      (∀ x ∈ S, x ∈ U) → (∀ x ∈ addedNodes ops, x ∈ U) → FreshOps S ops →
      ∃ m', runOps m ops = some m' ∧ SizeInv hash replicas m' (nodesAfter S ops) ∧
        ∀ x ∈ nodesAfter S ops, x ∈ U := by
  intro ops
  induction ops with
  | nil => intro m S h hS _ _; exact ⟨m, rfl, h, hS⟩
  | cons op ops ih =>
    intro m S h hS hU hf
    cases op with
    | add keys =>
      obtain ⟨hk, hfresh, hrest⟩ := hf
      have hU' : ∀ x ∈ keys ++ addedNodes ops, x ∈ U := hU
      exact ih (m.Add keys) (S ++ keys) (h.add keys hk hfresh)
        (fun x hx => (List.mem_append.1 hx).elim (hS x)
          (fun hx' => hU' x (List.mem_append_left _ hx')))
        (fun x hx => hU' x (List.mem_append_right _ hx)) hrest
    | remove key =>
      obtain ⟨hkey, hrest⟩ := hf
      obtain ⟨m', hm', hinv⟩ := SizeInv.remove hd hS h key hkey
      have hU' : ∀ x ∈ addedNodes ops, x ∈ U := hU
      obtain ⟨m'', hm'', hinv'', hsub''⟩ := ih m' _ hinv
        (fun x hx => hS x (List.mem_of_mem_filter hx)) hU' hrest
      refine ⟨m'', ?_, hinv'', hsub''⟩
      show (match m.Remove key with
        | some m' => consistenthash.runOps m' ops
        | none => none) = some m''
      rw [hm']
      exact hm''

theorem distinctPositions_of_nodup {hash : Hash} {replicas : Int} {U V : List String}
    (hU : ∀ x ∈ U, x ∈ V) (hp : (positions hash replicas V).Nodup) :
    DistinctPositions hash replicas U := by
  intro a ha b hb i j hi hj hij
  have hnc := noCollision_of_nodup hp
  have hab : a = b := hnc a (hU a ha) b (hU b hb) (position hash a i)
    (mem_nodePositions.2 ⟨i, hi, rfl⟩) (mem_nodePositions.2 ⟨j, hj, hij.symm⟩)
  refine ⟨hab, ?_⟩
  subst hab
  have hnd : ((List.range replicas.toNat).map (position hash a)).Nodup :=
    (List.nodup_flatMap.1 hp).1 a (hU a ha)
  exact List.inj_on_of_nodup_map hnd (List.mem_range.2 hi) (List.mem_range.2 hj) hij

/-- C15, as stated, fails: with three replicas and the hash of the test, whose positions for
node `"2"` are distinct, `Add("2")` twice leaves the node set `{"2"}` with `6` positions in
`keys` (and `3` entries in `hashmap`), not `3·1`; and a `Remove("2")` after that leaves the
empty node set with the `3` pairwise distinct positions `2`, `12`, `22` in `keys` (and no entry
in `hashmap`), not `3·0`. -/
theorem C15_second_Add_doubles_keys :
    (positions testHash 3 ["2"]).Nodup ∧
    (runOps (New 3 (some testHash)) [RingOp.add ["2"], RingOp.add ["2"]]).map
      (fun m => (m.keys, m.hashmap.length)) = some ([2, 2, 12, 12, 22, 22], 3) ∧
    (nodesAfter [] [RingOp.add ["2"], RingOp.add ["2"]]).dedup = ["2"] ∧
    (runOps (New 3 (some testHash)) [RingOp.add ["2"], RingOp.add ["2"]]).map
      (fun m => m.keys.length)
      ≠ some (3 * (nodesAfter [] [RingOp.add ["2"], RingOp.add ["2"]]).dedup.length) ∧
    (runOps (New 3 (some testHash))
        [RingOp.add ["2"], RingOp.add ["2"], RingOp.remove "2"]).map
      (fun m => (m.keys, m.hashmap.length)) = some ([2, 12, 22], 0) ∧
    nodesAfter [] [RingOp.add ["2"], RingOp.add ["2"], RingOp.remove "2"] = [] :=
  ⟨by decide, by decide, by decide, by decide, by decide, by decide⟩

/-- C15, amended: on a ring with `R` replicas reached from `New` by `Add` calls that name
nodes not in the ring, each once, and by `Remove` calls on nodes in the ring, when no two
different virtual nodes of the nodes ever added share a position, every call returns, and with
`S` the nodes in the ring the number of positions in `keys` and the number of entries of
`hashmap` are both `R·|S|` (a negative `R` counting as `0`). -/
theorem C15_ring_size (replicas : Int) (fn : Option Hash) (ops : List RingOp)
    (hd : DistinctPositions (New replicas fn).hash replicas (addedNodes ops))
    (hf : FreshOps [] ops) :
    ∃ m, runOps (New replicas fn) ops = some m ∧ (nodesAfter [] ops).Nodup ∧
      m.keys.length = replicas.toNat * (nodesAfter [] ops).length ∧
      m.hashmap.length = replicas.toNat * (nodesAfter [] ops).length := by
  obtain ⟨m, hm, hinv, hsub⟩ := SizeInv.runOps hd ops (New replicas fn) []
    (SizeInv.new replicas fn) (by intro x hx; cases hx) (fun x hx => hx) hf
  have hsize := SizeInv.size hd hsub hinv
  exact ⟨m, hm, hinv.2.2.2.2.2.2, hsize.1, hsize.2⟩

/-- C15 amended, at the ring of `TestHashing` after `Remove("2")` and `Add("6")`: three nodes,
nine positions, nine entries. -/
theorem C15_ring_size_witness :
    DistinctPositions (New 3 (some testHash)).hash 3
      (addedNodes [RingOp.add ["2", "4", "8"], RingOp.remove "2", RingOp.add ["6"]]) ∧
    FreshOps [] [RingOp.add ["2", "4", "8"], RingOp.remove "2", RingOp.add ["6"]] ∧
    (∃ m, runOps (New 3 (some testHash))
        [RingOp.add ["2", "4", "8"], RingOp.remove "2", RingOp.add ["6"]] = some m ∧
      (nodesAfter [] [RingOp.add ["2", "4", "8"], RingOp.remove "2", RingOp.add ["6"]]).Nodup ∧
      m.keys.length = (3 : Int).toNat *
        (nodesAfter [] [RingOp.add ["2", "4", "8"], RingOp.remove "2", RingOp.add ["6"]]).length ∧
      m.hashmap.length = (3 : Int).toNat *
        (nodesAfter [] [RingOp.add ["2", "4", "8"], RingOp.remove "2", RingOp.add ["6"]]).length) ∧
    nodesAfter [] [RingOp.add ["2", "4", "8"], RingOp.remove "2", RingOp.add ["6"]]
      = ["4", "8", "6"] ∧
    (runOps (New 3 (some testHash))
        [RingOp.add ["2", "4", "8"], RingOp.remove "2", RingOp.add ["6"]]).map
      (fun m => (m.keys, m.hashmap.length)) = some ([4, 6, 8, 14, 16, 18, 24, 26, 28], 9) :=
  ⟨distinctPositions_of_nodup (V := ["2", "4", "8", "6"]) (fun _ hx => hx) (by decide),
    by simp [FreshOps],
    C15_ring_size 3 (some testHash)
      [RingOp.add ["2", "4", "8"], RingOp.remove "2", RingOp.add ["6"]]
      (distinctPositions_of_nodup (V := ["2", "4", "8", "6"]) (fun _ hx => hx) (by decide))
      (by simp [FreshOps]),
    by decide, by decide⟩

/-! ## A ring with one node -/

/-- On a ring with a positive number of replicas and one node, that node owns every key. -/
theorem Get_single_node (replicas : Int) (fn : Option Hash) (b key : String)
    (h : 0 < replicas) : ((New replicas fn).Add [b]).Get key = b := by
  have hk : ((New replicas fn).Add [b]).keys
      = sortInts (positions (New replicas fn).hash replicas [b]) := by
    rw [Add_eq]; rfl
  have hm : ((New replicas fn).Add [b]).hashmap
      = IntMap.setAll [] (entries (New replicas fn).hash replicas ([] ++ b :: [])) := by
    rw [Add_eq]; rfl
  have hne : ((New replicas fn).Add [b]).keys ≠ [] := by
    intro hnil
    have hlen := congrArg List.length hnil
    rw [hk, (sortInts_perm _).length_eq, length_positions] at hlen
    simp at hlen
    omega
  obtain ⟨p, hp, hget⟩ := Get_spec ((New replicas fn).Add [b]) key
    (Reachable.add [b] (Reachable.new replicas fn)).sorted hne
  have hmem : p ∈ nodePositions (New replicas fn).hash replicas b := by
    have := hp.1
    rw [hk, mem_sortInts, mem_positions] at this
    obtain ⟨a, ha, hpa⟩ := this
    rw [List.mem_singleton.1 ha] at hpa
    exact hpa
  have hfind := find_entries_last (New replicas fn).hash replicas [] [] [] b p hmem
    (by simp [positions])
  rw [hget, hm, IntMap.index_eq_of_find hfind]

/-! ## `Remove` of a node added once: claim C2 -/

theorem diff_append_left : ∀ (l X : List Int), (l ++ X).diff l = X := by
  intro l
  induction l with
  | nil => intro X; simp
  | cons a l ih =>
    intro X
    rw [List.cons_append, List.diff_cons, List.erase_cons_head, ih]

theorem noCollision_of_distinct {hash : Hash} {replicas : Int} {U : List String}
    (hd : DistinctPositions hash replicas U) : NoCollision hash replicas U := by
  intro a ha b hb p hpa hpb
  obtain ⟨i, hi, rfl⟩ := mem_nodePositions.1 hpa
  obtain ⟨j, hj, hij⟩ := mem_nodePositions.1 hpb
  exact (hd a ha b hb i j hi hj hij.symm).1

/-- The positions of a list that names `n` once are those of `n` and those of the other
nodes. -/
theorem positions_perm_of_count_one (hash : Hash) (replicas : Int) (n : String) :
    ∀ nodes : List String, nodes.count n = 1 →
      (positions hash replicas nodes).Perm
        (nodePositions hash replicas n ++
          positions hash replicas (nodes.filter (fun x => decide (x ≠ n)))) := by
  intro nodes
  induction nodes with
  | nil => intro h; simp at h
  | cons x rest ih =>
    intro h
    have hcons : ∀ l, positions hash replicas (x :: l)
        = nodePositions hash replicas x ++ positions hash replicas l := by
      intro l; simp [positions]
    by_cases hx : x = n
    · subst hx
      have hzero : rest.count x = 0 := by
        rw [List.count_cons_self] at h
        omega
      have hnot : x ∉ rest := List.count_eq_zero.1 hzero
      have hfilter : (x :: rest).filter (fun y => decide (y ≠ x)) = rest := by
        rw [List.filter_cons_of_neg (by simp), List.filter_eq_self]
        intro y hy
        have : y ≠ x := fun hyx => hnot (hyx ▸ hy)
        simpa using this
      rw [hfilter, hcons]
    · have hone : rest.count n = 1 := by
        rw [List.count_cons_of_ne (fun hnx => hx hnx.symm)] at h
        exact h
      rw [List.filter_cons_of_pos (by simpa using hx), hcons, hcons]
      refine ((ih hone).append_left _).trans ?_
      rw [← List.append_assoc, ← List.append_assoc]
      exact List.Perm.append_right _ List.perm_append_comm

/-- C2, amended: `Remove` undoes the `Add` of a node that was added once. On a ring built by
`Add` calls from nodes whose virtual positions are pairwise distinct, `Remove(n)` of a node `n`
that the calls name exactly once returns; it takes exactly the positions of `n` out of `keys`
and out of `hashmap`; and the ring it leaves has the positions, the map entries and the `Get`
answers of the ring built from the other nodes. -/
theorem C2_Remove_undoes_Add (replicas : Int) (fn : Option Hash) (batches : List (List String))
    (n : String)
    (hd : DistinctPositions (New replicas fn).hash replicas batches.flatten)
    (hone : batches.flatten.count n = 1) :
    ∃ m', (built replicas fn batches).Remove n = some m' ∧
      m'.keys = (built replicas fn batches).keys.filter
        (fun p => decide (p ∉ nodePositions (New replicas fn).hash replicas n)) ∧
      (∀ p, m'.hashmap.find p =
        if p ∈ nodePositions (New replicas fn).hash replicas n then none
        else (built replicas fn batches).hashmap.find p) ∧
      m'.hash = (built replicas fn (withoutNode n batches)).hash ∧
      m'.replicas = (built replicas fn (withoutNode n batches)).replicas ∧
      m'.keys = (built replicas fn (withoutNode n batches)).keys ∧
      (∀ p, m'.hashmap.find p = (built replicas fn (withoutNode n batches)).hashmap.find p) ∧
      (∀ key, m'.Get key = (built replicas fn (withoutNode n batches)).Get key) := by
  obtain ⟨hh, hr, hk, hm⟩ := built_fields replicas fn batches
  obtain ⟨hh', hr', hk', hm'⟩ := built_fields replicas fn (withoutNode n batches)
  have hfl : (withoutNode n batches).flatten
      = batches.flatten.filter (fun x => decide (x ≠ n)) := by
    simp [withoutNode, List.filter_flatten]
  rw [hfl] at hk' hm'
  have hn : n ∈ batches.flatten := by
    apply List.count_pos_iff.1
    omega
  have hnc := noCollision_of_distinct hd
  have hsorted := (built_reachable replicas fn batches).sorted
  have hdisj : ∀ x ∈ batches.flatten, x ≠ n →
      ∀ p ∈ nodePositions (New replicas fn).hash replicas x,
        p ∉ nodePositions (New replicas fn).hash replicas n :=
    fun x hx hxn p hp hp' => hxn (hnc x hx n hn p hp hp')
  have hnpos : (nodePositions (New replicas fn).hash replicas n).Nodup := by
    unfold nodePositions
    apply List.Nodup.map_on _ (List.nodup_range _)
    intro i hi j hj hij
    exact (hd n hn n hn i j (List.mem_range.1 hi) (List.mem_range.1 hj) hij).2
  have hothers : ∀ p ∈ positions (New replicas fn).hash replicas
        (batches.flatten.filter (fun x => decide (x ≠ n))),
      p ∉ nodePositions (New replicas fn).hash replicas n := by
    intro p hp
    obtain ⟨a, ha, hpa⟩ := mem_positions.1 hp
    have ha' := List.mem_filter.1 ha
    exact hdisj a ha'.1 (by simpa using ha'.2) p hpa
  have hkperm : (built replicas fn batches).keys.Perm
      (nodePositions (New replicas fn).hash replicas n ++
        positions (New replicas fn).hash replicas
          (batches.flatten.filter (fun x => decide (x ≠ n)))) := by
    rw [hk]
    exact (sortInts_perm _).trans (positions_perm_of_count_one _ _ n _ hone)
  have hsub : (nodePositions (built replicas fn batches).hash
      (built replicas fn batches).replicas n).Subperm (built replicas fn batches).keys := by
    rw [hh, hr]
    exact (List.Perm.subperm_left hkperm).2 (List.sublist_append_left _ _).subperm
  have hrem := Remove_eq (built replicas fn batches) n hsorted hsub
  rw [hh, hr] at hrem
  have hdiffperm : ((built replicas fn batches).keys.diff
        (nodePositions (New replicas fn).hash replicas n)).Perm
      (positions (New replicas fn).hash replicas
        (batches.flatten.filter (fun x => decide (x ≠ n)))) := by
    have := List.Perm.diff_right (nodePositions (New replicas fn).hash replicas n) hkperm
    rwa [diff_append_left] at this
  have hfilterperm : ((built replicas fn batches).keys.filter
        (fun p => decide (p ∉ nodePositions (New replicas fn).hash replicas n))).Perm
      (positions (New replicas fn).hash replicas
        (batches.flatten.filter (fun x => decide (x ≠ n)))) := by
    have := hkperm.filter (fun p => decide (p ∉ nodePositions (New replicas fn).hash replicas n))
    rw [List.filter_append] at this
    have h1 : (nodePositions (New replicas fn).hash replicas n).filter
        (fun p => decide (p ∉ nodePositions (New replicas fn).hash replicas n)) = [] := by
      simp [List.filter_eq_nil_iff]
    have h2 : (positions (New replicas fn).hash replicas
          (batches.flatten.filter (fun x => decide (x ≠ n)))).filter
        (fun p => decide (p ∉ nodePositions (New replicas fn).hash replicas n))
        = positions (New replicas fn).hash replicas
          (batches.flatten.filter (fun x => decide (x ≠ n))) := by
      rw [List.filter_eq_self]
      intro p hp
      simpa using hothers p hp
    rwa [h1, h2, List.nil_append] at this
  have hdiff : (built replicas fn batches).keys.diff
        (nodePositions (New replicas fn).hash replicas n)
      = (built replicas fn batches).keys.filter
        (fun p => decide (p ∉ nodePositions (New replicas fn).hash replicas n)) :=
    List.eq_of_perm_of_sorted (r := fun x y : Int => x ≤ y)
      (hdiffperm.trans hfilterperm.symm)
      (List.Pairwise.sublist (List.diff_sublist _ _) hsorted)
      (List.Pairwise.sublist (List.filter_sublist _) hsorted)
  have hkeys : (built replicas fn batches).keys.filter
        (fun p => decide (p ∉ nodePositions (New replicas fn).hash replicas n))
      = (built replicas fn (withoutNode n batches)).keys := by
    rw [hk']
    exact List.eq_of_perm_of_sorted (r := fun x y : Int => x ≤ y)
      (hfilterperm.trans (sortInts_perm _).symm)
      (List.Pairwise.sublist (List.filter_sublist _) hsorted) (sortInts_sorted _)
  have hnc' : NoCollision (New replicas fn).hash replicas
      (batches.flatten.filter (fun x => decide (x ≠ n))) :=
    fun a ha b hb p hpa hpb =>
      hnc a (List.mem_of_mem_filter ha) b (List.mem_of_mem_filter hb) p hpa hpb
  have hfind : ∀ p, (IntMap.deleteAll (built replicas fn batches).hashmap
        (nodePositions (New replicas fn).hash replicas n)).find p
      = (built replicas fn (withoutNode n batches)).hashmap.find p := by
    intro p
    rw [IntMap.find_deleteAll, hm, hm']
    apply Option.ext
    intro v
    rw [Option.mem_def, Option.mem_def, find_entries_iff hnc' p v]
    by_cases hp : p ∈ nodePositions (New replicas fn).hash replicas n
    · rw [if_pos hp]
      constructor
      · intro h; cases h
      · rintro ⟨hv, hpv⟩
        have hv' := List.mem_filter.1 hv
        have : v = n := hnc v hv'.1 n hn p hpv hp
        simp [this] at hv'
    · rw [if_neg hp, find_entries_iff hnc p v]
      constructor
      · rintro ⟨hv, hpv⟩
        refine ⟨List.mem_filter.2 ⟨hv, ?_⟩, hpv⟩
        have : v ≠ n := fun h => hp (h ▸ hpv)
        simpa using this
      · rintro ⟨hv, hpv⟩
        exact ⟨List.mem_of_mem_filter hv, hpv⟩
  refine ⟨_, hrem, hdiff, ?_, hh'.symm, hr'.symm, hdiff.trans hkeys, hfind, ?_⟩
  · intro p
    exact IntMap.find_deleteAll _ _ _
  · intro key
    apply Get_congr
    · exact hh'.symm
    · exact hdiff.trans hkeys
    · exact hfind

/-- C2 amended, at the ring of `TestHashing`, after `Remove("2")` the lookups of the test; and
at a ring where another node, `"4"`, has been added twice. -/
theorem C2_Remove_undoes_Add_witness :
    DistinctPositions (New 3 (some testHash)).hash 3 [["2", "4", "8"]].flatten ∧
    [["2", "4", "8"]].flatten.count "2" = 1 ∧
    (∃ m', (built 3 (some testHash) [["2", "4", "8"]]).Remove "2" = some m' ∧
      m'.keys = (built 3 (some testHash) [["4", "8"]]).keys ∧
      (∀ key, m'.Get key = (built 3 (some testHash) [["4", "8"]]).Get key)) ∧
    ((built 3 (some testHash) [["2", "4", "8"]]).Remove "2").map (fun m => m.keys)
      = some [4, 8, 14, 18, 24, 28] ∧
    ((built 3 (some testHash) [["2", "4", "8"]]).Remove "2").map (fun m => m.Get "2")
      = some "4" ∧
    ((built 3 (some testHash) [["2", "4", "8"]]).Remove "2").map (fun m => m.Get "10")
      = some "4" ∧
    ((built 3 (some testHash) [["4", "2"], ["4"]]).Remove "2").map (fun m => m.keys)
      = some (built 3 (some testHash) [["4"], ["4"]]).keys :=
  ⟨distinctPositions_of_nodup (V := ["2", "4", "8"]) (fun _ hx => hx) (by decide),
    by decide,
    (C2_Remove_undoes_Add 3 (some testHash) [["2", "4", "8"]] "2"
      (distinctPositions_of_nodup (V := ["2", "4", "8"]) (fun _ hx => hx) (by decide))
      (by decide)).imp
      (fun _ h => ⟨h.1, h.2.2.2.2.2.1, h.2.2.2.2.2.2.2⟩),
    by decide, by decide, by decide, by decide⟩

end consistenthash

namespace gc

/-! ## The store on a miss and on a hit -/

theorem cache_get_miss (c : cache) (key : String) (h : c.entries.lookup key = none) :
    c.get key = ((ByteView.mk [], false), c) := by
  simp [cache.get, h]

theorem cache_get_hit (c : cache) (key : String) (v : ByteView)
    (h : c.entries.lookup key = some v) :
    (c.get key).1 = (v, true) := by
  simp [cache.get, h]

/-- What `Get` does on a non-empty key that is not resident: it reads the cache and loads. -/
theorem Get_miss (g : Group) (key : String) (hkey : key ≠ "")
    (hmiss : g.mainCache.entries.lookup key = none) :
    g.Get key = Group.load { g with events := g.events ++ [Event.cacheGet key] } key := by
  unfold Group.Get
  rw [if_neg hkey, cache_get_miss _ _ hmiss]
  simp

/-! ## The example groups are built by the constructors -/

theorem exampleGroup_built :
    (NewGroup [] "scores" 2048 (some exampleGetter)).map Prod.fst = some exampleGroup := rfl

theorem exampleGroupWithPeer_built (peer : PeerGetter) :
    exampleGroup.RegisterPeers (some { Pick := fun _ => some peer })
      = some (exampleGroupWithPeer peer) := rfl

/-! ## Claims on `Group.Get` -/

/-- C5: for every group, `Get("")` returns the zero `ByteView` and the error `ErrKey`, and
leaves the group as it was: no call on the cache, on the peers or on the getter is made. -/
theorem C5_Get_empty_key (g : Group) :
    g.Get "" = ((ByteView.mk [], some ErrKey), g) := by
  unfold Group.Get
  rw [if_pos rfl]

/-- C6, what the code does: for a non-empty key that is not resident and is served locally,
when the getter returns bytes `v` and a nil error, `Get` populates the cache with `key ↦ v`
but returns the zero `ByteView` with a nil error: `load` returns its named result `value`,
which its function literal has not assigned, and drops the result of `Do`. -/
theorem C6_local_value_dropped (g : Group) (key : String) (v : List UInt8) (hkey : key ≠ "")
    (hmiss : g.mainCache.entries.lookup key = none)
    (hlocal : g.peers = none ∨ ∃ pk, g.peers = some pk ∧ pk.Pick key = none)
    (hget : g.getter.Get key = (v, none)) :
    (g.Get key).1 = (ByteView.mk [], none) ∧
    (g.Get key).2.mainCache = g.mainCache.add key (ByteView.mk v) := by
  rw [Get_miss g key hkey hmiss]
  rcases hlocal with hp | ⟨pk, hp, hpick⟩
  · simp [Group.load, singleflightDo, Group.loadFn, Group.getLocally, Group.populateCache,
      cloneBytes, hp, hget]
  · simp [Group.load, singleflightDo, Group.loadFn, Group.getLocally, Group.populateCache,
      cloneBytes, hp, hpick, hget]

/-- C6 at the example group: the getter returns the bytes of `"630"` for `"Tom"`, the cache
is populated with them, and `Get("Tom")` returns no bytes. -/
theorem C6_local_value_dropped_witness :
    "Tom" ≠ "" ∧ exampleGroup.mainCache.entries.lookup "Tom" = none ∧
    exampleGroup.getter.Get "Tom" = ([54, 51, 48], none) ∧
    ((exampleGroup.Get "Tom").1 = (ByteView.mk [], none) ∧
      (exampleGroup.Get "Tom").2.mainCache
        = exampleGroup.mainCache.add "Tom" (ByteView.mk [54, 51, 48])) ∧
    (exampleGroup.Get "Tom").1.1.b ≠ [54, 51, 48] ∧
    (exampleGroup.Get "Tom").2.mainCache.entries = [("Tom", ByteView.mk [54, 51, 48])] :=
  ⟨by decide, by decide, by decide,
    C6_local_value_dropped exampleGroup "Tom" [54, 51, 48] (by decide) (by decide)
      (Or.inl rfl) (by decide),
    by decide, by decide⟩

/-- C7, what the code does: for a non-empty key that is not resident, when `Pick` returns a
peer whose `Get` returns an error, `Get` returns the zero `ByteView` with a nil error and
never calls the getter: the function literal of `load` returns on `err != nil`. -/
theorem C7_peer_failure_no_fallback (g : Group) (key : String) (pk : PeerPicker)
    (peer : PeerGetter) (w : List UInt8) (e : Error) (hkey : key ≠ "")
    (hmiss : g.mainCache.entries.lookup key = none)
    (hp : g.peers = some pk) (hpick : pk.Pick key = some peer)
    (hpeer : peer.Get g.name key = (w, some e)) :
    (g.Get key).1 = (ByteView.mk [], none) ∧
    (g.Get key).2.events
      = g.events ++ [Event.cacheGet key, Event.pick key, Event.peerGet g.name key] ∧
    (g.Get key).2.mainCache = g.mainCache := by
  rw [Get_miss g key hkey hmiss]
  simp [Group.load, singleflightDo, Group.loadFn, Group.getFromPeer, hp, hpick, hpeer]

/-- C7 at the example group with a peer that always fails: the getter would return the bytes
of `"630"`, and `Get("Tom")` returns no bytes, with no call of the getter. -/
theorem C7_peer_failure_no_fallback_witness :
    "Tom" ≠ "" ∧ exampleGetter.Get "Tom" = ([54, 51, 48], none) ∧
    (((exampleGroupWithPeer failingPeer).Get "Tom").1 = (ByteView.mk [], none) ∧
      ((exampleGroupWithPeer failingPeer).Get "Tom").2.events
        = (exampleGroupWithPeer failingPeer).events ++
          [Event.cacheGet "Tom", Event.pick "Tom",
            Event.peerGet (exampleGroupWithPeer failingPeer).name "Tom"] ∧
      ((exampleGroupWithPeer failingPeer).Get "Tom").2.mainCache
        = (exampleGroupWithPeer failingPeer).mainCache) ∧
    Event.getterGet "Tom" ∉ ((exampleGroupWithPeer failingPeer).Get "Tom").2.events :=
  ⟨by decide, by decide,
    C7_peer_failure_no_fallback (exampleGroupWithPeer failingPeer) "Tom"
      { Pick := fun _ => some failingPeer } failingPeer [] (Error.other "connection refused")
      (by decide) (by decide) rfl rfl rfl,
    by decide⟩

/-- C8, what the code does: for a non-empty key that is not resident, when `Pick` returns a
peer whose `Get` succeeds with bytes `w` and the getter returns bytes `v` with a nil error,
`Get` returns `w` with a nil error, but only after it has called the getter and populated the
cache with `key ↦ v`: on `err == nil` the function literal of `load` falls through to
`getLocally`. -/
theorem C8_peer_success_still_loads (g : Group) (key : String) (pk : PeerPicker)
    (peer : PeerGetter) (w v : List UInt8) (hkey : key ≠ "")
    (hmiss : g.mainCache.entries.lookup key = none)
    (hp : g.peers = some pk) (hpick : pk.Pick key = some peer)
    (hpeer : peer.Get g.name key = (w, none)) (hget : g.getter.Get key = (v, none)) :
    (g.Get key).1 = (ByteView.mk w, none) ∧
    (g.Get key).2.events
      = g.events ++ [Event.cacheGet key, Event.pick key, Event.peerGet g.name key,
          Event.logPeer none, Event.getterGet key, Event.cacheAdd key (ByteView.mk v)] ∧
    (g.Get key).2.mainCache = g.mainCache.add key (ByteView.mk v) := by
  rw [Get_miss g key hkey hmiss]
  simp [Group.load, singleflightDo, Group.loadFn, Group.getFromPeer, Group.getLocally,
    Group.populateCache, cloneBytes, hp, hpick, hpeer, hget]

/-- C8 at the example group with a peer that answers `"589"`: `Get("Tom")` returns the bytes of
the peer, the getter has been called and `"Tom"` is now resident with the bytes of the getter. -/
theorem C8_peer_success_still_loads_witness :
    "Tom" ≠ "" ∧ (exampleGroupWithPeer answeringPeer).mainCache.entries.lookup "Tom" = none ∧
    (((exampleGroupWithPeer answeringPeer).Get "Tom").1 = (ByteView.mk [53, 56, 57], none) ∧
      ((exampleGroupWithPeer answeringPeer).Get "Tom").2.events
        = (exampleGroupWithPeer answeringPeer).events ++
          [Event.cacheGet "Tom", Event.pick "Tom",
            Event.peerGet (exampleGroupWithPeer answeringPeer).name "Tom",
            Event.logPeer none, Event.getterGet "Tom",
            Event.cacheAdd "Tom" (ByteView.mk [54, 51, 48])] ∧
      ((exampleGroupWithPeer answeringPeer).Get "Tom").2.mainCache
        = (exampleGroupWithPeer answeringPeer).mainCache.add "Tom" (ByteView.mk [54, 51, 48])) ∧
    Event.getterGet "Tom" ∈ ((exampleGroupWithPeer answeringPeer).Get "Tom").2.events ∧
    ((exampleGroupWithPeer answeringPeer).Get "Tom").2.mainCache.entries.lookup "Tom"
      = some (ByteView.mk [54, 51, 48]) :=
  ⟨by decide, by decide,
    C8_peer_success_still_loads (exampleGroupWithPeer answeringPeer) "Tom"
      { Pick := fun _ => some answeringPeer } answeringPeer [53, 56, 57] [54, 51, 48]
      (by decide) (by decide) rfl rfl rfl (by decide),
    by decide, by decide⟩

/-- C9: for every non-empty key resident in `mainCache` with value `v`, `Get` returns `v` and
a nil error; the calls it makes are the cache lookup and the log line of the hit, so neither
the getter nor `Pick` nor a peer is called. -/
theorem C9_Get_cache_hit (g : Group) (key : String) (v : ByteView) (hkey : key ≠ "")
    (hres : g.mainCache.entries.lookup key = some v) :
    (g.Get key).1 = (v, none) ∧
    (g.Get key).2.events = g.events ++ [Event.cacheGet key, Event.logCacheHit key] := by
  unfold Group.Get
  rw [if_neg hkey]
  simp [cache_get_hit _ _ _ hres]

/-- C9 at the example group after a first `Get("Tom")`, which made `"Tom"` resident. -/
theorem C9_Get_cache_hit_witness :
    "Tom" ≠ "" ∧
    (exampleGroup.Get "Tom").2.mainCache.entries.lookup "Tom" = some (ByteView.mk [54, 51, 48]) ∧
    (((exampleGroup.Get "Tom").2.Get "Tom").1 = (ByteView.mk [54, 51, 48], none) ∧
      ((exampleGroup.Get "Tom").2.Get "Tom").2.events
        = (exampleGroup.Get "Tom").2.events
          ++ [Event.cacheGet "Tom", Event.logCacheHit "Tom"]) :=
  ⟨by decide, by decide,
    C9_Get_cache_hit (exampleGroup.Get "Tom").2 "Tom" (ByteView.mk [54, 51, 48])
      (by decide) (by decide)⟩

/-- C10: for every non-empty key that is not resident and is served locally, when the getter
returns the error `e`, `Get` returns that same error `e`, and `mainCache` is left as it was,
the key still not resident. -/
theorem C10_loader_error_propagates (g : Group) (key : String) (v : List UInt8) (e : Error)
    (hkey : key ≠ "") (hmiss : g.mainCache.entries.lookup key = none)
    (hlocal : g.peers = none ∨ ∃ pk, g.peers = some pk ∧ pk.Pick key = none)
    (hget : g.getter.Get key = (v, some e)) :
    (g.Get key).1.2 = some e ∧ (g.Get key).1.1 = ByteView.mk [] ∧
    (g.Get key).2.mainCache = g.mainCache ∧
    (g.Get key).2.mainCache.entries.lookup key = none := by
  rw [Get_miss g key hkey hmiss]
  rcases hlocal with hp | ⟨pk, hp, hpick⟩
  · simp [Group.load, singleflightDo, Group.loadFn, Group.getLocally, hp, hget, hmiss]
  · simp [Group.load, singleflightDo, Group.loadFn, Group.getLocally, hp, hpick, hget, hmiss]

/-- C10 at the example group, whose getter fails on `"Jack"`. -/
theorem C10_loader_error_propagates_witness :
    "Jack" ≠ "" ∧ exampleGroup.mainCache.entries.lookup "Jack" = none ∧
    exampleGroup.getter.Get "Jack" = ([], some (Error.other "not exist")) ∧
    ((exampleGroup.Get "Jack").1.2 = some (Error.other "not exist") ∧
      (exampleGroup.Get "Jack").1.1 = ByteView.mk [] ∧
      (exampleGroup.Get "Jack").2.mainCache = exampleGroup.mainCache ∧
      (exampleGroup.Get "Jack").2.mainCache.entries.lookup "Jack" = none) :=
  ⟨by decide, by decide, by decide,
    C10_loader_error_propagates exampleGroup "Jack" [] (Error.other "not exist")
      (by decide) (by decide) (Or.inl rfl) (by decide)⟩

/-! ## Claims on the errors of `Group.Get` and on `HTTPPool.Pick` -/

/-- C11: for every group, key, picker, peer and getter, the error that `Get` returns is nil,
or `ErrKey` (on the empty key), or the error that the getter returns for the key; and when the
peer is called and returns an error, `Get` returns a nil error, so the error of a peer never
reaches the caller. -/
theorem C11_error_invariant (g : Group) (key : String) :
    ((g.Get key).1.2 = none ∨ (key = "" ∧ (g.Get key).1.2 = some ErrKey) ∨
      (key ≠ "" ∧ (g.Get key).1.2 = (g.getter.Get key).2)) ∧
    (∀ pk peer e, key ≠ "" → g.mainCache.entries.lookup key = none → g.peers = some pk →
      pk.Pick key = some peer → (peer.Get g.name key).2 = some e → (g.Get key).1.2 = none) := by
  constructor
  · by_cases hkey : key = ""
    · right; left
      subst hkey
      exact ⟨rfl, rfl⟩
    · cases hres : g.mainCache.entries.lookup key with
      | some v =>
        left
        unfold Group.Get
        rw [if_neg hkey]
        simp [cache_get_hit _ _ _ hres]
      | none =>
        rw [Get_miss g key hkey hres]
        cases hp : g.peers with
        | none =>
          cases hg : (g.getter.Get key).2 with
          | none =>
            left
            simp [Group.load, singleflightDo, Group.loadFn, Group.getLocally, hp, hg]
          | some e =>
            right; right
            refine ⟨hkey, ?_⟩
            simp [Group.load, singleflightDo, Group.loadFn, Group.getLocally, hp, hg]
        | some pk =>
          cases hpick : pk.Pick key with
          | none =>
            cases hg : (g.getter.Get key).2 with
            | none =>
              left
              simp [Group.load, singleflightDo, Group.loadFn, Group.getLocally, hp, hpick, hg]
            | some e =>
              right; right
              refine ⟨hkey, ?_⟩
              simp [Group.load, singleflightDo, Group.loadFn, Group.getLocally, hp, hpick, hg]
          | some peer =>
            cases hpe : (peer.Get g.name key).2 with
            | some e =>
              left
              simp [Group.load, singleflightDo, Group.loadFn, Group.getFromPeer, hp, hpick, hpe]
            | none =>
              cases hg : (g.getter.Get key).2 with
              | none =>
                left
                simp [Group.load, singleflightDo, Group.loadFn, Group.getFromPeer,
                  Group.getLocally, hp, hpick, hpe, hg]
              | some e =>
                right; right
                refine ⟨hkey, ?_⟩
                simp [Group.load, singleflightDo, Group.loadFn, Group.getFromPeer,
                  Group.getLocally, hp, hpick, hpe, hg]
  · intro pk peer e hkey hres hp hpick hpe
    rw [Get_miss g key hkey hres]
    simp [Group.load, singleflightDo, Group.loadFn, Group.getFromPeer, hp, hpick, hpe]

/-- C11 at the example groups: the error of the failing peer is not returned, the error of the
getter is. -/
theorem C11_error_invariant_witness :
    (failingPeer.Get "scores" "Tom").2 = some (Error.other "connection refused") ∧
    ((exampleGroupWithPeer failingPeer).Get "Tom").1.2 = none ∧
    (exampleGroup.Get "").1.2 = some ErrKey ∧
    (exampleGroup.getter.Get "Jack").2 = some (Error.other "not exist") ∧
    (exampleGroup.Get "Jack").1.2 = some (Error.other "not exist") :=
  ⟨by decide,
    (C11_error_invariant (exampleGroupWithPeer failingPeer) "Tom").2
      { Pick := fun _ => some failingPeer } failingPeer (Error.other "connection refused")
      (by decide) (by decide) rfl rfl rfl,
    by decide, by decide, by decide⟩

/-- C12, what the code does: `Pick` returns `(nil, false)` when the ring is empty or the owner
of the key is the pool itself; but when the owner is another peer it panics, for
`p.logger.Panicf` stands before `return p.httpGetters[peer], true`. So a pool whose only peer
is another node, which owns every key and has its getter recorded, panics on every key. -/
theorem C12_Pick_panics_on_remote_owner (self other key : String) (hother : other ≠ "")
    (hself : other ≠ self) :
    (NewHTTPPool self).Pick key = some (none, false) ∧
    ((NewHTTPPool self).Set [self]).Pick key = some (none, false) ∧
    ((NewHTTPPool self).Set [other]).peers.Get key = other ∧
    ((NewHTTPPool self).Set [other]).httpGetters.lookup other
      = some { defaultURL := other ++ defaultBasePath } ∧
    ((NewHTTPPool self).Set [other]).Pick key = none ∧
    (∀ p : HTTPPool, p.peers.Get key ≠ "" → p.peers.Get key ≠ p.self → p.Pick key = none) ∧
    (∀ p : HTTPPool, p.peers.Get key = "" ∨ p.peers.Get key = p.self →
      p.Pick key = some (none, false)) := by
  have hgen : ∀ p : HTTPPool, p.peers.Get key ≠ "" → p.peers.Get key ≠ p.self →
      p.Pick key = none := by
    intro p h1 h2
    unfold HTTPPool.Pick
    simp only
    rw [if_pos ⟨h1, h2⟩]
    rfl
  have hloc : ∀ p : HTTPPool, p.peers.Get key = "" ∨ p.peers.Get key = p.self →
      p.Pick key = some (none, false) := by
    intro p h
    unfold HTTPPool.Pick
    simp only
    rw [if_neg]
    rintro ⟨h1, h2⟩
    rcases h with h | h
    · exact h1 h
    · exact h2 h
  have hone : ∀ b, ((NewHTTPPool self).Set [b]).peers.Get key = b := by
    intro b
    exact consistenthash.Get_single_node defaultReplicas none b key (by decide)
  refine ⟨hloc _ (Or.inl rfl), hloc _ (Or.inr (hone self)), hone other, ?_, ?_, hgen, hloc⟩
  · simp [HTTPPool.Set, HTTPPool.setGetter, NewHTTPPool]
  · apply hgen
    · rw [hone other]; exact hother
    · rw [hone other]; exact hself

/-- C12 at the pool of node `http://localhost:8001` with the one peer
`http://localhost:8002`. -/
theorem C12_Pick_panics_on_remote_owner_witness :
    "http://localhost:8002" ≠ "" ∧ "http://localhost:8002" ≠ "http://localhost:8001" ∧
    ((NewHTTPPool "http://localhost:8001").Set ["http://localhost:8002"]).peers.Get "Tom"
      = "http://localhost:8002" ∧
    ((NewHTTPPool "http://localhost:8001").Set ["http://localhost:8002"]).Pick "Tom" = none :=
  ⟨by decide, by decide,
    (C12_Pick_panics_on_remote_owner "http://localhost:8001" "http://localhost:8002" "Tom"
      (by decide) (by decide)).2.2.1,
    (C12_Pick_panics_on_remote_owner "http://localhost:8001" "http://localhost:8002" "Tom"
      (by decide) (by decide)).2.2.2.2.1⟩

/-! ## Claims on `ServeHTTP` and on `ByteSlice` -/

theorem cutSlash_none : ∀ s : List Char, '/' ∉ s → cutSlash s = none := by
  intro s
  induction s with
  | nil => intro _; rfl
  | cons c cs ih =>
    intro h
    simp only [List.mem_cons, not_or] at h
    unfold cutSlash
    rw [if_neg (fun hc => h.1 hc.symm), ih h.2]
    rfl

theorem cutSlash_append : ∀ (g k : List Char), '/' ∉ g → cutSlash (g ++ '/' :: k) = some (g, k) := by
  intro g
  induction g with
  | nil => intro k _; simp [cutSlash]
  | cons c cs ih =>
    intro k h
    simp only [List.mem_cons, not_or] at h
    rw [List.cons_append]
    unfold cutSlash
    rw [if_neg (fun hc => h.1 hc.symm), ih k h.2]
    rfl

theorem cutSlash_some : ∀ (s g k : List Char), cutSlash s = some (g, k) →
    s = g ++ '/' :: k ∧ '/' ∉ g := by
  intro s
  induction s with
  | nil => intro g k h; simp [cutSlash] at h
  | cons c cs ih =>
    intro g k h
    unfold cutSlash at h
    by_cases hc : c = '/'
    · rw [if_pos hc] at h
      injection h with h
      injection h with h1 h2
      subst h1 h2 hc
      simp
    · rw [if_neg hc] at h
      cases hcs : cutSlash cs with
      | none => rw [hcs] at h; simp at h
      | some r =>
        rw [hcs] at h
        simp only [Option.map_some', Option.some.injEq, Prod.mk.injEq] at h
        obtain ⟨h1, h2⟩ := h
        obtain ⟨e1, e2⟩ := ih r.1 r.2 (by rw [hcs])
        subst h1 h2
        refine ⟨by rw [e1]; simp, ?_⟩
        simp only [List.mem_cons, not_or]
        exact ⟨fun hx => hc hx.symm, e2⟩

theorem cutSlash_eq_none : ∀ s : List Char, cutSlash s = none → '/' ∉ s := by
  intro s h hmem
  obtain ⟨g, k, rfl⟩ : ∃ g k, s = g ++ '/' :: k := List.append_of_mem hmem
  induction g with
  | nil => simp [cutSlash] at h
  | cons c cs ih =>
    rw [List.cons_append] at h
    unfold cutSlash at h
    by_cases hc : c = '/'
    · rw [if_pos hc] at h; simp at h
    · rw [if_neg hc] at h
      cases hcs : cutSlash (cs ++ '/' :: k) with
      | none => exact ih hcs (by simp)
      | some r => rw [hcs] at h; simp at h

/-- `Get` calls `Pick` exactly on a non-empty key that is not resident when a picker is
registered. -/
theorem callsPick_iff (g : Group) (key : String) :
    g.callsPick key = true ↔
      key ≠ "" ∧ g.mainCache.entries.lookup key = none ∧ g.peers ≠ none := by
  unfold Group.callsPick
  by_cases hkey : key = ""
  · subst hkey
    have : (g.Get "").2.events = g.events := rfl
    simp [this]
  · cases hres : g.mainCache.entries.lookup key with
    | some v =>
      have hev : (g.Get key).2.events
          = g.events ++ [Event.cacheGet key, Event.logCacheHit key] := by
        unfold Group.Get
        rw [if_neg hkey]
        simp [cache_get_hit _ _ _ hres]
      rw [hev, List.drop_left]
      simp
    | none =>
      rw [Get_miss g key hkey hres]
      cases hp : g.peers with
      | none =>
        cases hg : (g.getter.Get key).2 with
        | none =>
          simp [Group.load, singleflightDo, Group.loadFn, Group.getLocally,
            Group.populateCache, hp, hg, hkey]
        | some e =>
          simp [Group.load, singleflightDo, Group.loadFn, Group.getLocally, hp, hg, hkey]
      | some pk =>
        cases hpick : pk.Pick key with
        | none =>
          cases hg : (g.getter.Get key).2 with
          | none =>
            simp [Group.load, singleflightDo, Group.loadFn, Group.getLocally,
              Group.populateCache, hp, hpick, hg, hkey]
          | some e =>
            simp [Group.load, singleflightDo, Group.loadFn, Group.getLocally, hp, hpick, hg,
              hkey]
        | some peer =>
          cases hpe : (peer.Get g.name key).2 with
          | some e =>
            simp [Group.load, singleflightDo, Group.loadFn, Group.getFromPeer, hp, hpick, hpe,
              hkey]
          | none =>
            cases hg : (g.getter.Get key).2 with
            | none =>
              simp [Group.load, singleflightDo, Group.loadFn, Group.getFromPeer,
                Group.getLocally, Group.populateCache, hp, hpick, hpe, hg, hkey]
            | some e =>
              simp [Group.load, singleflightDo, Group.loadFn, Group.getFromPeer,
                Group.getLocally, hp, hpick, hpe, hg, hkey]

/-- Where the `Pick` of an `HTTPPool` returns, it returns `(nil, false)`. -/
theorem HTTPPool.Pick_returns (p : HTTPPool) (key : String) (r : Option httpGetter × Bool)
    (h : p.Pick key = some r) : r = (none, false) := by
  unfold HTTPPool.Pick at h
  simp only at h
  split at h
  · cases h
  · injection h with h
    exact h.symm

/-- The `Pick` of the example pool panics on every key: the only peer owns every key. -/
theorem examplePool_pickPanics (key : String) : examplePool.pickPanics key = true := by
  have hget : examplePool.peers.Get key = "http://localhost:8002" :=
    consistenthash.Get_single_node defaultReplicas none "http://localhost:8002" key (by decide)
  have hself : examplePool.self = "http://localhost:8001" := rfl
  unfold HTTPPool.pickPanics HTTPPool.Pick
  simp only
  rw [hget, hself, if_pos ⟨by decide, by decide⟩]
  rfl

theorem exampleGroupWithPool_built :
    exampleGroup.RegisterPeers (some examplePool.picker) = some exampleGroupWithPool := rfl

/-- What `ServeHTTP` does with a path that starts with the base path. -/
theorem ServeHTTP_basepath (w : Wire) (panics : String → String → Bool) (p : HTTPPool)
    (groups : Groups) (rest : String) :
    p.ServeHTTP w panics groups (p.basepath ++ rest) =
      if (SplitN2 rest.toList).length ≠ 2 then some (httpError "bad request" 400, groups)
      else
        match GetGroup groups ((SplitN2 rest.toList).getD 0 "") with
        | none =>
          some (httpError ("no such group: " ++ (SplitN2 rest.toList).getD 0 "") 404, groups)
        | some group =>
          (group.GetOrPanic (panics ((SplitN2 rest.toList).getD 0 ""))
              ((SplitN2 rest.toList).getD 1 "")).bind fun r =>
            match r.1.2 with
            | some err =>
              some (httpError (w.ErrorText err) 500,
                groups.put ((SplitN2 rest.toList).getD 0 "") r.2)
            | none =>
              match (w.Marshal r.1.1.ByteSlice).2 with
              | some err =>
                some (httpError (w.ErrorText err) 500,
                  groups.put ((SplitN2 rest.toList).getD 0 "") r.2)
              | none =>
                some ({ status := 200, contentType := "application/octet-stream",
                        body := (w.Marshal r.1.1.ByteSlice).1 },
                  groups.put ((SplitN2 rest.toList).getD 0 "") r.2) := by
  unfold HTTPPool.ServeHTTP
  have hpre : p.basepath.toList.isPrefixOf (p.basepath ++ rest).toList = true := by
    rw [List.isPrefixOf_iff_prefix]
    exact ⟨rest.toList, rfl⟩
  have hdrop : (p.basepath ++ rest).toList.drop p.basepath.toList.length = rest.toList := by
    show (p.basepath.toList ++ rest.toList).drop p.basepath.toList.length = rest.toList
    exact List.drop_left _ _
  rw [hpre, hdrop]
  rfl

theorem SplitN2_one (rest : String) (h : '/' ∉ rest.toList) : SplitN2 rest.toList = [rest] := by
  unfold SplitN2
  rw [cutSlash_none _ h]
  rfl

theorem SplitN2_two (gname key : String) (h : '/' ∉ gname.toList) :
    SplitN2 (gname ++ "/" ++ key).toList = [gname, key] := by
  have hl : (gname ++ "/" ++ key).toList = gname.toList ++ '/' :: key.toList := by
    show (gname.toList ++ ['/']) ++ key.toList = gname.toList ++ '/' :: key.toList
    simp
  unfold SplitN2
  rw [hl, cutSlash_append _ _ h]
  rfl

/-- C13, as stated, fails: a rest of three segments is not answered with 400. On
`/gc/a/b/c` with no group registered the status is 404, and on `/gc/scores/Tom/x` with the
group `scores` registered (no picker, so nothing panics) the key `Tom/x` is looked up and the
status is 500. -/
theorem C13_longer_path_is_not_400 :
    segmentCount "a/b/c" = 3 ∧
    ((NewHTTPPool "http://localhost:8001").ServeHTTP exampleWire (fun _ _ => false) []
      "/gc/a/b/c").map (fun r => r.1.status) = some 404 ∧
    segmentCount "scores/Tom/x" = 3 ∧
    ((NewHTTPPool "http://localhost:8001").ServeHTTP exampleWire (fun _ _ => false)
      [("scores", exampleGroup)] "/gc/scores/Tom/x").map (fun r => r.1)
      = some (httpError "not exist" 500) ∧
    (((NewHTTPPool "http://localhost:8001").ServeHTTP exampleWire (fun _ _ => false)
      [("scores", exampleGroup)] "/gc/scores/Tom/x").bind
        (fun r => (GetGroup r.2 "scores").map (fun g => g.events)))
      = some [Event.cacheGet "Tom/x", Event.getterGet "Tom/x"] :=
  ⟨by decide, by decide, by decide, by decide, by decide⟩

/-- C13, amended: for every request path that starts with the base path, `ServeHTTP` answers
400 when the rest of the path has no `'/'`; otherwise, with `<group>` the text before the
first `'/'` and `<key>` all the text after it, 404 when no group `<group>` is registered;
otherwise, when `Group.Get(<key>)` calls `Pick` on the picker of the group (the key is not
empty and not resident and a picker is registered) and that `Pick` panics, `ServeHTTP` panics
and writes no status; otherwise 500 with the text of the error when `Group.Get(<key>)` returns
an error; otherwise 500 with the text of the error when the encoding of the value fails;
otherwise 200 with the encoded value and the content type `application/octet-stream`. Each
rest is of exactly one of the two shapes, so exactly one of the cases applies. -/
theorem C13_ServeHTTP_status (w : Wire) (panics : String → String → Bool) (p : HTTPPool)
    (groups : Groups) (rest : String) :
    ('/' ∉ rest.toList →
      (p.ServeHTTP w panics groups (p.basepath ++ rest)).map Prod.fst
        = some (httpError "bad request" 400)) ∧
    (∀ gname key, rest = gname ++ "/" ++ key → '/' ∉ gname.toList →
      (GetGroup groups gname = none →
        (p.ServeHTTP w panics groups (p.basepath ++ rest)).map Prod.fst
          = some (httpError ("no such group: " ++ gname) 404)) ∧
      (∀ g, GetGroup groups gname = some g →
        (key ≠ "" → g.mainCache.entries.lookup key = none → g.peers ≠ none →
          panics gname key = true →
          p.ServeHTTP w panics groups (p.basepath ++ rest) = none) ∧
        (key = "" ∨ g.mainCache.entries.lookup key ≠ none ∨ g.peers = none ∨
            panics gname key = false →
          (∀ e, (g.Get key).1.2 = some e →
            (p.ServeHTTP w panics groups (p.basepath ++ rest)).map Prod.fst
              = some (httpError (w.ErrorText e) 500)) ∧
          ((g.Get key).1.2 = none →
            (∀ e, (w.Marshal (g.Get key).1.1.b).2 = some e →
              (p.ServeHTTP w panics groups (p.basepath ++ rest)).map Prod.fst
                = some (httpError (w.ErrorText e) 500)) ∧
            ((w.Marshal (g.Get key).1.1.b).2 = none →
              (p.ServeHTTP w panics groups (p.basepath ++ rest)).map Prod.fst
                = some { status := 200, contentType := "application/octet-stream",
                         body := (w.Marshal (g.Get key).1.1.b).1 }))))) ∧
    (('/' ∉ rest.toList ∧ ¬ ∃ gname key, rest = gname ++ "/" ++ key ∧ '/' ∉ gname.toList) ∨
      ('/' ∈ rest.toList ∧ ∃ gname key, rest = gname ++ "/" ++ key ∧ '/' ∉ gname.toList)) := by
  refine ⟨?_, ?_, ?_⟩
  · intro h
    rw [ServeHTTP_basepath, SplitN2_one rest h]
    rfl
  · intro gname key hrest hg
    subst hrest
    rw [ServeHTTP_basepath, SplitN2_two gname key hg]
    refine ⟨?_, ?_⟩
    · intro hnone
      simp [hnone]
    · intro g hsome
      refine ⟨?_, ?_⟩
      · intro hkey hmiss hpeers hpanic
        have hcalls : g.callsPick key = true := (callsPick_iff g key).2 ⟨hkey, hmiss, hpeers⟩
        simp [hsome, Group.GetOrPanic, hcalls, hpanic]
      · intro hret
        have hcond : (g.callsPick key && panics gname key) = false := by
          cases hc : g.callsPick key with
          | false => rfl
          | true =>
            obtain ⟨hkey, hmiss, hpeers⟩ := (callsPick_iff g key).1 hc
            rcases hret with h | h | h | h
            · exact absurd h hkey
            · exact absurd hmiss h
            · exact absurd h hpeers
            · simp [h]
        have hget : g.GetOrPanic (panics gname) key = some (g.Get key) := by
          unfold Group.GetOrPanic
          rw [hcond]
          rfl
        refine ⟨?_, ?_⟩
        · intro e he
          simp [hsome, hget, he]
        · intro he
          refine ⟨?_, ?_⟩
          · intro e hm
            simp [hsome, hget, he, ByteView.ByteSlice, hm]
          · intro hm
            simp [hsome, hget, he, ByteView.ByteSlice, hm]
  · by_cases h : '/' ∈ rest.toList
    · right
      refine ⟨h, ?_⟩
      cases hc : cutSlash rest.toList with
      | none => exact absurd h (cutSlash_eq_none _ hc)
      | some r =>
        obtain ⟨e1, e2⟩ := cutSlash_some rest.toList r.1 r.2 (by rw [hc])
        refine ⟨String.mk r.1, String.mk r.2, ?_, e2⟩
        show rest = String.mk ((r.1 ++ ['/']) ++ r.2)
        have : (r.1 ++ ['/']) ++ r.2 = rest.toList := by rw [e1]; simp
        rw [this]
        rfl
    · left
      refine ⟨h, ?_⟩
      rintro ⟨gname, key, hrest, _⟩
      apply h
      rw [hrest]
      show '/' ∈ (gname.toList ++ ['/']) ++ key.toList
      simp

/-- C13 amended, at the pool of `http://localhost:8001`. With the group `scores` that has
`"Tom"` resident and no picker: one request for each of the four statuses. With the group
`scores` whose picker is the example pool, whose `Pick` panics on every key: the request for
the non-resident key `"Tom"` panics, with no status. -/
theorem C13_ServeHTTP_status_witness :
    ((NewHTTPPool "http://localhost:8001").ServeHTTP exampleWire (fun _ _ => false)
        [("scores", (exampleGroup.Get "Tom").2)]
        ((NewHTTPPool "http://localhost:8001").basepath ++ "scores")).map Prod.fst
      = some (httpError "bad request" 400) ∧
    ((NewHTTPPool "http://localhost:8001").ServeHTTP exampleWire (fun _ _ => false)
        [("scores", (exampleGroup.Get "Tom").2)] "/gc/marks/Tom").map Prod.fst
      = some (httpError "no such group: marks" 404) ∧
    ((NewHTTPPool "http://localhost:8001").ServeHTTP exampleWire (fun _ _ => false)
        [("scores", (exampleGroup.Get "Tom").2)] "/gc/scores/Jack").map Prod.fst
      = some (httpError "not exist" 500) ∧
    ((NewHTTPPool "http://localhost:8001").ServeHTTP exampleWire (fun _ _ => false)
        [("scores", (exampleGroup.Get "Tom").2)] "/gc/scores/Tom").map Prod.fst
      = some { status := 200, contentType := "application/octet-stream",
               body := [10, 3, 54, 51, 48] } ∧
    examplePool.ServeHTTP exampleWire (fun _ => examplePool.pickPanics)
        [("scores", exampleGroupWithPool)] (examplePool.basepath ++ ("scores" ++ "/" ++ "Tom"))
      = none :=
  ⟨(C13_ServeHTTP_status exampleWire (fun _ _ => false) (NewHTTPPool "http://localhost:8001")
      [("scores", (exampleGroup.Get "Tom").2)] "scores").1 (by decide),
    by decide, by decide, by decide,
    ((C13_ServeHTTP_status exampleWire (fun _ => examplePool.pickPanics) examplePool
      [("scores", exampleGroupWithPool)] ("scores" ++ "/" ++ "Tom")).2.1 "scores" "Tom" rfl
      (by decide)).2 exampleGroupWithPool rfl |>.1 (by decide) (by decide)
      (by intro h; cases h) (examplePool_pickPanics "Tom")⟩

namespace heap

theorem getD_set_self (h : Heap) (n : Nat) (a : List UInt8) (hn : n < h.length) :
    (h.set n a).getD n [] = a := by
  rw [List.getD_eq_getElem?_getD, List.getElem?_set_self hn]
  rfl

theorem getD_set_other (h : Heap) (n m : Nat) (a : List UInt8) (hne : n ≠ m) :
    (h.set n a).getD m [] = h.getD m [] := by
  rw [List.getD_eq_getElem?_getD, List.getD_eq_getElem?_getD, List.getElem?_set_ne hne]

theorem getD_append_left (h h' : Heap) (m : Nat) (hm : m < h.length) :
    (h ++ h').getD m [] = h.getD m [] := by
  rw [List.getD_eq_getElem?_getD, List.getD_eq_getElem?_getD, List.getElem?_append_left hm]

/-- C17, what the code does: `ByteSlice` returns the slice `bv.b` itself, not a copy. So an
assignment `s[i] = x` to the returned slice `s` changes byte `i` of `v.String()`, and of every
copy of the value `v`, such as the one resident in the cache; only `v.Len()` is unchanged.
A slice made by `cloneBytes` has an array of its own, and assignments to it leave
`v.String()` as it was. -/
theorem C17_ByteSlice_shares_bytes (h : Heap) (v : ByteView) (i : Nat) (x : UInt8)
    (hv : v.b.valid h) (hi : i < v.b.len) :
    v.ByteSlice = v.b ∧
    (∃ h', v.ByteSlice.assign h i x = some h' ∧ v.String h' = (v.String h).set i x ∧
      (v.String h').getD i 0 = x) ∧
    (∃ h2, (cloneBytes h v.b).1.assign (cloneBytes h v.b).2 i x = some h2 ∧
      v.String h2 = v.String h) := by
  obtain ⟨harr, hlen⟩ := hv
  refine ⟨rfl, ?_, ?_⟩
  · have hstr : v.String (h.set v.b.arr ((h.getD v.b.arr []).set (v.b.off + i) x))
        = (v.String h).set i x := by
      unfold ByteView.String Slice.bytes
      rw [getD_set_self h _ _ harr, List.drop_set, if_neg (by omega), List.set_take]
      congr 2
      omega
    refine ⟨_, ?_, hstr, ?_⟩
    · unfold Slice.assign ByteView.ByteSlice
      rw [if_pos hi]
    · rw [hstr]
      have hl : i < ((v.String h).set i x).length := by
        unfold ByteView.String Slice.bytes
        rw [List.length_set, List.length_take, List.length_drop]
        omega
      rw [List.getD_eq_getElem _ _ hl, List.getElem_set_self]
  · refine ⟨(h ++ [v.b.bytes h]).set h.length
      (((h ++ [v.b.bytes h]).getD h.length []).set (0 + i) x), ?_, ?_⟩
    · unfold Slice.assign cloneBytes
      simp only
      rw [if_pos hi]
    · unfold ByteView.String Slice.bytes
      rw [getD_set_other _ _ _ _ (by omega), getD_append_left _ _ _ harr]

/-- C17 at the value with the bytes of `"630"`: after `s := v.ByteSlice(); s[0] = 'X'` the
string of `v` is `"X30"`. -/
theorem C17_ByteSlice_shares_bytes_witness :
    exampleView.b.valid exampleHeap ∧ 0 < exampleView.b.len ∧
    exampleView.String exampleHeap = [54, 51, 48] ∧
    (exampleView.ByteSlice.assign exampleHeap 0 88).map (fun h => exampleView.String h)
      = some [88, 51, 48] ∧
    (∃ h', exampleView.ByteSlice.assign exampleHeap 0 88 = some h' ∧
      exampleView.String h' = (exampleView.String exampleHeap).set 0 88 ∧
      (exampleView.String h').getD 0 0 = 88) :=
  ⟨⟨by decide, by decide⟩, by decide, by decide, by decide,
    (C17_ByteSlice_shares_bytes exampleHeap exampleView 0 88 ⟨by decide, by decide⟩
      (by decide)).2.1⟩

end heap

end gc
